import Mathlib

/-!
Verification of the `semantic_organizer.scanner` module of
ErhardRainer/semantic-file-organizer against its specification.

The development shallowly embeds the scanner pipeline
(`src/semantic_organizer/scanner.py`): the deterministic walker
(`Scanner._walk_directory`), exclusion rules (`Scanner.should_exclude`,
backed by `fnmatch`), the record builder (`make_record`), the MD5 digest
(`compute_md5`, with hashlib's MD5 implemented in full), the streaming
JSON array writer (`write_json_array_stream`, both the sequential branch
and the FIFO-buffered concurrent branch), and the entry points
(`files2json`, `Scanner.scan_directory`).

Modelling conventions:
- Bytes are `Nat` (< 256), machine words are `Nat` reduced mod 2^32.
- Python strings are Lean `String`s; name ordering is code-point
  lexicographic, as CPython's `str` comparison is (`charListLe`).
- Paths are lists of segments; POSIX separators are used, matching the
  platform the spec's examples were written on.
- The filesystem is a finite tree (`FSTree`); a directory's constructor
  argument order is the order `os.scandir` enumerates that directory.
  Failure injection points mirror the `OSError` sites of the code:
  `listFails` (scandir), `statFails` (`DirEntry.stat`), `readFails`
  (opening/reading the file during hashing).
- `concurrent.futures` is modelled by its observable semantics: a
  future submitted for `compute_md5(p)` resolves to exactly the value
  (or exception) of that call; `Future.result()` blocks, so the value
  the writer sees is deterministic.  Thread scheduling therefore has no
  observable effect besides what the FIFO buffer dictates, which is
  exactly what the order-invariance claims assert.
- hashlib digest state is modelled by the bytes fed so far; the digest
  of that state is the real MD5 of those bytes.  This is observationally
  equivalent to the incremental implementation: `update` concatenates.
-/

/-! ## Generic list utilities -/

/-- Code-point lexicographic comparison of char lists, the order CPython
uses for `str` comparison (`sorted(..., key=itemgetter(0))` in the
scanner sorts by these). -/
def charListLe : List Char → List Char → Bool
  | [], _ => true
  | _ :: _, [] => false
  | a :: as, b :: bs => if a < b then true else if b < a then false else charListLe as bs

/-- String comparison as CPython performs it (code-point lexicographic). -/
def strLeB (a b : String) : Bool := charListLe a.data b.data

theorem charListLe_total (a b : List Char) : charListLe a b = true ∨ charListLe b a = true := by
  induction a generalizing b with
  | nil => left; rfl
  | cons x xs ih =>
    cases b with
    | nil => right; rfl
    | cons y ys =>
      by_cases h1 : x < y
      · left; simp [charListLe, h1]
      · by_cases h2 : y < x
        · right; simp [charListLe, h2, h1]
        · rcases ih ys with h | h
          · left; simp [charListLe, h1, h2, h]
          · right; simp [charListLe, h1, h2, h]

@[simp] theorem charListLe_cons (x y : Char) (xs ys : List Char) :
    charListLe (x :: xs) (y :: ys) = true ↔
      x < y ∨ (x = y ∧ charListLe xs ys = true) := by
  simp only [charListLe]
  rcases lt_trichotomy x y with h | h | h
  · simp [h]
  · subst h; simp [lt_irrefl]
  · simp [h, not_lt_of_lt h, ne_of_gt h]

theorem charListLe_trans {a b c : List Char} (h1 : charListLe a b = true)
    (h2 : charListLe b c = true) : charListLe a c = true := by
  induction a generalizing b c with
  | nil => rfl
  | cons x xs ih =>
    cases b with
    | nil => simp [charListLe] at h1
    | cons y ys =>
      cases c with
      | nil => simp [charListLe] at h2
      | cons z zs =>
        rw [charListLe_cons] at h1 h2 ⊢
        rcases h1 with h1 | ⟨rfl, h1⟩
        · rcases h2 with h2 | ⟨rfl, h2⟩
          · exact Or.inl (lt_trans h1 h2)
          · exact Or.inl h1
        · rcases h2 with h2 | ⟨rfl, h2⟩
          · exact Or.inl h2
          · exact Or.inr ⟨rfl, ih h1 h2⟩

/-! ## Stable sort

CPython's `sorted` is a stable comparison sort.  Any stable sort with
the same (total, transitive) boolean comparison computes the same list,
so a stable insertion sort is an exact model of `sorted(files,
key=lambda item: item[0])`. -/

/-- Insert `x` after every element `y` of an (already sorted) list with
`le y x`, i.e. after all elements that sort no later than `x`.  Used
left-to-right this is stable. -/
def insertTail (le : α → α → Bool) (x : α) : List α → List α
  | [] => [x]
  | y :: ys => if le y x then y :: insertTail le x ys else x :: y :: ys

/-- Stable insertion sort with boolean comparison `le`. -/
def sortBy (le : α → α → Bool) : List α → List α
  | [] => []
  | x :: xs => insertTail le x (sortBy le xs)

theorem insertTail_perm (le : α → α → Bool) (x : α) (l : List α) :
    (insertTail le x l).Perm (x :: l) := by
  induction l with
  | nil => exact List.Perm.refl _
  | cons y ys ih =>
    simp only [insertTail]
    by_cases h : le y x = true
    · simp only [h, if_true]
      exact ((ih.cons y).trans (List.Perm.swap x y ys)).symm.symm
    · simp [h]

theorem sortBy_perm (le : α → α → Bool) (l : List α) : (sortBy le l).Perm l := by
  induction l with
  | nil => exact List.Perm.refl _
  | cons x xs ih =>
    exact (insertTail_perm le x (sortBy le xs)).trans (ih.cons x)

theorem mem_sortBy {le : α → α → Bool} {x : α} {l : List α} :
    x ∈ sortBy le l ↔ x ∈ l := (sortBy_perm le l).mem_iff

theorem insertTail_pairwise {le : α → α → Bool}
    (htot : ∀ a b, le a b = true ∨ le b a = true)
    (htrans : ∀ a b c, le a b = true → le b c = true → le a c = true)
    {x : α} {l : List α} (hl : l.Pairwise (fun a b => le a b = true)) :
    (insertTail le x l).Pairwise (fun a b => le a b = true) := by
  induction l with
  | nil => simp [insertTail]
  | cons y ys ih =>
    simp only [insertTail]
    rcases List.pairwise_cons.mp hl with ⟨hy, hys⟩
    by_cases h : le y x = true
    · simp only [h, if_true]
      refine List.pairwise_cons.mpr ⟨?_, ih hys⟩
      intro a ha
      rcases List.mem_cons.mp ((insertTail_perm le x ys).mem_iff.mp ha) with rfl | ha
      · exact h
      · exact hy a ha
    · simp only [h, if_false]
      refine List.pairwise_cons.mpr ⟨?_, hl⟩
      intro a ha
      rcases List.mem_cons.mp ha with rfl | ha
      · rcases htot x a with h2 | h2
        · exact h2
        · exact absurd h2 h
      · rcases htot x a with h2 | h2
        · exact h2
        · exact absurd (htrans y a x (hy a ha) h2) h

theorem sortBy_pairwise {le : α → α → Bool}
    (htot : ∀ a b, le a b = true ∨ le b a = true)
    (htrans : ∀ a b c, le a b = true → le b c = true → le a c = true)
    (l : List α) : (sortBy le l).Pairwise (fun a b => le a b = true) := by
  induction l with
  | nil => simp [sortBy]
  | cons x xs ih => exact insertTail_pairwise htot htrans ih

/-! ## MD5 (`hashlib.md5`) and `compute_md5`

`compute_md5` (scanner.py lines 25-33) streams the file in fixed-size
chunks through `hashlib.md5` and returns `hexdigest()`.  The MD5
algorithm (RFC 1321) is implemented below over byte lists; the hashlib
object is modelled by the bytes fed so far, whose `hexdigest` is the MD5
of their concatenation, exactly the observable behaviour of incremental
`update` calls. -/

/-- 2^32, the word modulus of MD5 arithmetic. -/
def M32 : Nat := 4294967296

/-- 32-bit left rotation of a word `< 2^32`. -/
def rotl32 (x n : Nat) : Nat := ((x <<< n) % M32) ||| (x >>> (32 - n))

/-- The 64 MD5 round constants `floor(2^32 * abs(sin(i+1)))`. -/
def md5K : List Nat :=
  [0xd76aa478, 0xe8c7b756, 0x242070db, 0xc1bdceee, 0xf57c0faf, 0x4787c62a, 0xa8304613, 0xfd469501,
   0x698098d8, 0x8b44f7af, 0xffff5bb1, 0x895cd7be, 0x6b901122, 0xfd987193, 0xa679438e, 0x49b40821,
   0xf61e2562, 0xc040b340, 0x265e5a51, 0xe9b6c7aa, 0xd62f105d, 0x02441453, 0xd8a1e681, 0xe7d3fbc8,
   0x21e1cde6, 0xc33707d6, 0xf4d50d87, 0x455a14ed, 0xa9e3e905, 0xfcefa3f8, 0x676f02d9, 0x8d2a4c8a,
   0xfffa3942, 0x8771f681, 0x6d9d6122, 0xfde5380c, 0xa4beea44, 0x4bdecfa9, 0xf6bb4b60, 0xbebfbc70,
   0x289b7ec6, 0xeaa127fa, 0xd4ef3085, 0x04881d05, 0xd9d4d039, 0xe6db99e5, 0x1fa27cf8, 0xc4ac5665,
   0xf4292244, 0x432aff97, 0xab9423a7, 0xfc93a039, 0x655b59c3, 0x8f0ccc92, 0xffeff47d, 0x85845dd1,
   0x6fa87e4f, 0xfe2ce6e0, 0xa3014314, 0x4e0811a1, 0xf7537e82, 0xbd3af235, 0x2ad7d2bb, 0xeb86d391]

/-- The 64 MD5 per-round shift amounts. -/
def md5S : List Nat :=
  [7, 12, 17, 22, 7, 12, 17, 22, 7, 12, 17, 22, 7, 12, 17, 22,
   5, 9, 14, 20, 5, 9, 14, 20, 5, 9, 14, 20, 5, 9, 14, 20,
   4, 11, 16, 23, 4, 11, 16, 23, 4, 11, 16, 23, 4, 11, 16, 23,
   6, 10, 15, 21, 6, 10, 15, 21, 6, 10, 15, 21, 6, 10, 15, 21]

/-- Little-endian byte decomposition of a 32-bit word. -/
def le32 (x : Nat) : List Nat := [x % 256, (x >>> 8) % 256, (x >>> 16) % 256, (x >>> 24) % 256]

/-- Group a 64-byte block into 16 little-endian 32-bit words. -/
def bytesToWords : List Nat → List Nat
  | b0 :: b1 :: b2 :: b3 :: rest => (b0 ||| (b1 <<< 8) ||| (b2 <<< 16) ||| (b3 <<< 24)) :: bytesToWords rest
  | _ => []

/-- One MD5 round (round index `i < 64`) on state `(a, b, c, d)` with
message words `m`. -/
def md5Round (m : List Nat) (i : Nat) (st : Nat × Nat × Nat × Nat) : Nat × Nat × Nat × Nat :=
  let (a, b, c, d) := st
  let f :=
    if i < 16 then (b &&& c) ||| ((b ^^^ 0xffffffff) &&& d)
    else if i < 32 then (d &&& b) ||| ((d ^^^ 0xffffffff) &&& c)
    else if i < 48 then b ^^^ c ^^^ d
    else c ^^^ (b ||| (d ^^^ 0xffffffff))
  let g :=
    if i < 16 then i
    else if i < 32 then (5 * i + 1) % 16
    else if i < 48 then (3 * i + 5) % 16
    else (7 * i) % 16
  let f2 := (f + a + md5K.getD i 0 + m.getD g 0) % M32
  (d, (b + rotl32 f2 (md5S.getD i 0)) % M32, b, c)

/-- Absorb one padded 64-byte block into the MD5 state. -/
def md5Block (st : Nat × Nat × Nat × Nat) (block : List Nat) : Nat × Nat × Nat × Nat :=
  let m := bytesToWords block
  let (a, b, c, d) := (List.range 64).foldl (fun s i => md5Round m i s) st
  let (a0, b0, c0, d0) := st
  ((a0 + a) % M32, (b0 + b) % M32, (c0 + c) % M32, (d0 + d) % M32)

/-- `chunksOfAux n fuel l` splits `l` into consecutive chunks of `n`
elements (the last one shorter); `fuel ≥ l.length` makes it total. -/
def chunksOfAux (n : Nat) : Nat → List α → List (List α)
  | _, [] => []
  | 0, _ :: _ => []
  | fuel + 1, x :: xs => (x :: xs).take n :: chunksOfAux n fuel ((x :: xs).drop n)

/-- Split a list into consecutive chunks of `n` elements, as
`iter(lambda: handle.read(chunk_size), b"")` produces them. -/
def chunksOf (n : Nat) (l : List α) : List (List α) := chunksOfAux n l.length l

/-- MD5 padding: append `0x80`, zero bytes up to 56 mod 64, then the
64-bit little-endian bit length. -/
def md5Pad (msg : List Nat) : List Nat :=
  let bitLen := (msg.length * 8) % (2 ^ 64)
  let padLen := (55 + 64 - msg.length % 64) % 64 + 1
  msg ++ (0x80 :: List.replicate (padLen - 1) 0) ++ le32 (bitLen % M32) ++ le32 ((bitLen >>> 32) % M32)

/-- Lowercase hexadecimal digit for `n < 16`. -/
def hexDigitChar (n : Nat) : Char := if n < 10 then Char.ofNat (48 + n) else Char.ofNat (87 + n)

/-- Two lowercase hex digits of a byte. -/
def byteToHex (b : Nat) : List Char := [hexDigitChar (b / 16), hexDigitChar (b % 16)]

/-- The digest bytes of the final MD5 state, little-endian word by word. -/
def md5StateBytes (st : Nat × Nat × Nat × Nat) : List Nat :=
  le32 st.1 ++ le32 st.2.1 ++ le32 st.2.2.1 ++ le32 st.2.2.2

/-- The lowercase-hex MD5 digest of a byte list (`hashlib.md5(bytes).hexdigest()`). -/
def md5Hex (msg : List Nat) : String :=
  let blocks := chunksOf 64 (md5Pad msg)
  String.mk ((md5StateBytes
    (blocks.foldl md5Block (0x67452301, 0xefcdab89, 0x98badcfe, 0x10325476))).flatMap byteToHex)

example : md5Hex [] = "d41d8cd98f00b204e9800998ecf8427e" := by decide
example : md5Hex [104, 101, 108, 108, 111] = "5d41402abc4b2a76b9719d911017c592" := by decide
example : md5Hex [97, 98, 99] = "900150983cd24fb0d6963f7d28e17f72" := by decide

/-- The state of a `hashlib.md5()` object: the bytes fed so far.
Incremental `update` appends; `hexdigest` hashes the concatenation.
This is the defining observable behaviour of the hashlib object. -/
structure Md5Hash where
  fed : List Nat

/-- `md5.update(chunk)`. -/
def Md5Hash.update (h : Md5Hash) (chunk : List Nat) : Md5Hash := ⟨h.fed ++ chunk⟩

/-- `md5.hexdigest()`. -/
def Md5Hash.hexdigest (h : Md5Hash) : String := md5Hex h.fed

/-- `compute_md5` (scanner.py lines 25-33): stream the content in
`chunk_size`-byte chunks through MD5 and return the lowercase hex
digest.  The scanner always calls it with the default
`chunk_size = 1024 * 1024`. -/
def compute_md5 (content : List Nat) (chunk_size : Nat) : String :=
  ((chunksOf chunk_size content).foldl Md5Hash.update ⟨[]⟩).hexdigest

/-- Concatenating the chunks gives back the original list. -/
theorem join_chunksOfAux {n : Nat} (hn : 1 ≤ n) :
    ∀ (fuel : Nat) (l : List α), l.length ≤ fuel → (chunksOfAux n fuel l).flatten = l := by
  intro fuel
  induction fuel with
  | zero =>
    intro l hl
    cases l with
    | nil => rfl
    | cons x xs => simp at hl
  | succ fuel ih =>
    intro l hl
    cases l with
    | nil => rfl
    | cons x xs =>
      simp only [chunksOfAux, List.flatten]
      rw [ih ((x :: xs).drop n) ?_]
      · exact List.take_append_drop n (x :: xs)
      · simp only [List.length_drop, List.length_cons] at hl ⊢
        omega

theorem join_chunksOf {n : Nat} (hn : 1 ≤ n) (l : List α) : (chunksOf n l).flatten = l :=
  join_chunksOfAux hn l.length l le_rfl

/-- Feeding the chunks one by one accumulates exactly the concatenation
of the chunks. -/
theorem foldl_update_fed (chunks : List (List Nat)) (h : Md5Hash) :
    (chunks.foldl Md5Hash.update h).fed = h.fed ++ chunks.flatten := by
  induction chunks generalizing h with
  | nil => simp
  | cons c cs ih => simp [List.foldl, ih, Md5Hash.update, List.append_assoc]

/-- The streaming chunked digest equals the digest of the whole
content, for any positive chunk size (the scanner uses 1 MiB). -/
theorem compute_md5_eq_md5Hex {chunk_size : Nat} (hn : 1 ≤ chunk_size) (content : List Nat) :
    compute_md5 content chunk_size = md5Hex content := by
  unfold compute_md5 Md5Hash.hexdigest
  rw [foldl_update_fed, join_chunksOf hn]
  rfl

/-! ## Dates (`datetime.fromtimestamp(...).strftime("%Y-%m-%d")`)

`fromtimestamp` interprets the POSIX timestamp in local time; the local
zone is modelled as a fixed UTC offset `tzOff` in seconds, carried as a
parameter through every definition that formats a date. -/

/-- Convert a day count since 1970-01-01 to a `(year, month, day)`
civil date (proleptic Gregorian; Hinnant's algorithm). -/
def civilFromDays (z0 : Int) : Int × Int × Int :=
  let z := z0 + 719468
  let era := (if 0 ≤ z then z else z - 146096) / 146097
  let doe := z - era * 146097
  let yoe := (doe - doe / 1460 + doe / 36524 - doe / 146096) / 365
  let y := yoe + era * 400
  let doy := doe - (365 * yoe + yoe / 4 - yoe / 100)
  let mp := (5 * doy + 2) / 153
  let d := doy - (153 * mp + 2) / 5 + 1
  let m := if mp < 10 then mp + 3 else mp - 9
  (if m ≤ 2 then y + 1 else y, m, d)

example : civilFromDays 0 = (1970, 1, 1) := by decide
example : civilFromDays 11574 = (2001, 9, 9) := by decide
example : civilFromDays (-1) = (1969, 12, 31) := by decide

/-- Decimal digits of a natural number (fuel-based, total). -/
def natDigitsAux : Nat → Nat → List Char
  | 0, _ => []
  | fuel + 1, n =>
    if n < 10 then [Char.ofNat (48 + n)]
    else natDigitsAux fuel (n / 10) ++ [Char.ofNat (48 + n % 10)]

/-- Decimal string of a natural number. -/
def natToString (n : Nat) : String := String.mk (natDigitsAux (n + 1) n)

/-- Decimal string of an integer. -/
def intToString (n : Int) : String :=
  if n < 0 then "-" ++ natToString n.toNat else natToString n.toNat

/-- Zero-padded two-digit field, as `strftime` pads `%m` and `%d`. -/
def pad2 (n : Int) : String := if 0 ≤ n ∧ n < 10 then "0" ++ intToString n else intToString n

example : natToString 2025 = "2025" := by decide
example : pad2 9 = "09" := by decide

/-- The `(year, month, day)` of `datetime.fromtimestamp(ts)` for a
local zone at fixed offset `tzOff` seconds east of UTC. -/
def localCivilDate (tzOff ts : Int) : Int × Int × Int :=
  civilFromDays (Int.fdiv (ts + tzOff) 86400)

/-- `datetime.fromtimestamp(ts).strftime("%Y-%m-%d")`. -/
def dateStr (tzOff ts : Int) : String :=
  let d := localCivilDate tzOff ts
  intToString d.1 ++ "-" ++ pad2 d.2.1 ++ "-" ++ pad2 d.2.2

example : dateStr 0 0 = "1970-01-01" := by decide
example : dateStr 0 1000000000 = "2001-09-09" := by decide
example : dateStr 7200 1000000000 = "2001-09-09" := by decide
example : dateStr (-7200) 0 = "1969-12-31" := by decide

/-! ## Records (`make_record`, scanner.py lines 305-319) -/

/-- The fields of `os.stat_result` the scanner reads. -/
structure StatResult where
  st_size : Nat
  st_mtime : Int
deriving DecidableEq, Repr

/-- One output record, with the exact key set of the PowerShell-parity
JSON object. -/
structure Record where
  path : String
  filename : String
  complete_path : String
  checksum : String
  size : Nat
  date : String
deriving DecidableEq, Repr

/-- The segments joined by `/`. -/
def joinSegs : List String → String
  | [] => ""
  | [x] => x
  | x :: y :: rest => x ++ "/" ++ joinSegs (y :: rest)

/-- `str(Path(*segs))` on POSIX: `"."` for the empty path, otherwise the
segments joined by `/`. -/
def pathStr (segs : List String) : String :=
  match segs with
  | [] => "."
  | _ => joinSegs segs

/-- `Path(*segs).name`: the final segment (`""` for the empty path). -/
def pathName (segs : List String) : String := segs.getLastD ""

/-- `make_record(relative_path, stat, checksum)`: build one output
record.  A pure function of its three inputs (plus the ambient local
time zone used by `strftime`). -/
def make_record (tzOff : Int) (relative_path : List String) (stat : StatResult)
    (checksum : String) : Record :=
  let relative_parent := relative_path.dropLast
  let relative_dir := if pathStr relative_parent = "." then "" else pathStr relative_parent
  { path := relative_dir
    filename := pathName relative_path
    complete_path := pathStr relative_path
    checksum := checksum
    size := stat.st_size
    date := dateStr tzOff stat.st_mtime }

/-! ## JSON serialization (`json.dumps(obj, ensure_ascii=False, indent=2)`
and `json_pretty_item`, scanner.py lines 44-50) -/

/-- Escape one character as CPython's `json` encoder does with
`ensure_ascii=False`: backslash, double quote, and the named control
escapes; `\u00XX` for other control characters; everything else
verbatim. -/
def jsonEscapeChar (c : Char) : List Char :=
  if c = '\x22' then ['\\', '\x22']
  else if c = '\\' then ['\\', '\\']
  else if c = '\n' then ['\\', 'n']
  else if c = '\r' then ['\\', 'r']
  else if c = '\t' then ['\\', 't']
  else if c = '\x08' then ['\\', 'b']
  else if c = '\x0c' then ['\\', 'f']
  else if c.toNat < 32 then ['\\', 'u', '0', '0', hexDigitChar (c.toNat / 16), hexDigitChar (c.toNat % 16)]
  else [c]

/-- A JSON string literal for `s`. -/
def jsonStringLit (s : String) : String :=
  String.mk ('\x22' :: (s.data.flatMap jsonEscapeChar ++ ['\x22']))

/-- The key/serialized-value pairs of a record, in the insertion order
of the dict built by `make_record` (CPython dicts preserve it, and
`json.dumps` serializes in that order). -/
def recordFields (r : Record) : List (String × String) :=
  [("path", jsonStringLit r.path),
   ("filename", jsonStringLit r.filename),
   ("complete_path", jsonStringLit r.complete_path),
   ("checksum", jsonStringLit r.checksum),
   ("size", natToString r.size),
   ("date", jsonStringLit r.date)]

/-- `json.dumps(record, ensure_ascii=False, indent=2)`: the object
opener, each member on its own line indented two spaces, members
separated by `",\n"`, and the closer on its own line. -/
def json_dumps_record (r : Record) : String :=
  "\x7b\n" ++
    String.intercalate ",\n"
      ((recordFields r).map (fun kv => "  " ++ jsonStringLit kv.1 ++ ": " ++ kv.2)) ++
  "\n\x7d"

/-- Is `c` one of the line boundaries `str.splitlines` recognizes:
`\n`, `\r`, `\v`, `\f`, the file/group/record separators
`\x1c`-`\x1e`, NEL `\x85`, and the Unicode line/paragraph separators
U+2028/U+2029?  The last three are not control characters below
`\x20`, so `json.dumps(ensure_ascii=False)` passes them through raw
inside string values and they can reach the `splitlines` call. -/
def isLineBoundary (c : Char) : Bool :=
  c = '\n' || c = '\r' || c = '\x0b' || c = '\x0c' || c = '\x1c' ||
    c = '\x1d' || c = '\x1e' || c = '\x85' || c = '\u2028' || c = '\u2029'

/-- `str.splitlines()`: split at every line boundary, `\r\n` counting
as a single boundary; a trailing boundary produces no trailing empty
line, and the empty string has no lines at all. -/
def splitLinesChars : List Char → List (List Char)
  | [] => []
  | [c] => if isLineBoundary c then [[]] else [[c]]
  | c :: c2 :: cs2 =>
    if isLineBoundary c then
      if c = '\r' ∧ c2 = '\n' then [] :: splitLinesChars cs2
      else [] :: splitLinesChars (c2 :: cs2)
    else
      match splitLinesChars (c2 :: cs2) with
      | [] => [[c]]
      | l :: ls => (c :: l) :: ls

example : splitLinesChars "ab\ncd".data = [['a', 'b'], ['c', 'd']] := by decide
example : splitLinesChars "ab\n".data = [['a', 'b']] := by decide
example : splitLinesChars "a\r\nb".data = [['a'], ['b']] := by decide
example : splitLinesChars "a\u2028b".data = [['a'], ['b']] := by decide
example : splitLinesChars "a\x85b\u2029".data = [['a'], ['b']] := by decide
example : splitLinesChars "".data = [] := by decide

/-- `json_pretty_item(obj, base_indent)`: serialize and further indent
every line by `base_indent` spaces so the object nests inside the
array. -/
def json_pretty_item (obj : Record) (base_indent : Nat) : String :=
  let text := json_dumps_record obj
  let pad := String.mk (List.replicate base_indent ' ')
  String.intercalate "\n" ((splitLinesChars text.data).map (fun l => pad ++ String.mk l))

example : json_pretty_item
    { path := "", filename := "a.txt", complete_path := "a.txt",
      checksum := "", size := 5, date := "2025-10-12" } 2 =
    "  \x7b\n    \x22path\x22: \x22\x22,\n    \x22filename\x22: \x22a.txt\x22,\n    \x22complete_path\x22: \x22a.txt\x22,\n    \x22checksum\x22: \x22\x22,\n    \x22size\x22: 5,\n    \x22date\x22: \x222025-10-12\x22\n  \x7d" := by
  decide

/- A filename holding a raw U+2028: `json.dumps` emits it unescaped,
`splitlines` then breaks the string value there, and the rejoin pads
the continuation — the serialized value really does contain
`"a\n  b"`, no longer valid JSON, exactly as the program behaves. -/
example : json_pretty_item
    { path := "", filename := "a b", complete_path := "c",
      checksum := "", size := 1, date := "d" } 2 =
    "  \x7b\n    \x22path\x22: \x22\x22,\n    \x22filename\x22: \x22a\n  b\x22,\n    \x22complete_path\x22: \x22c\x22,\n    \x22checksum\x22: \x22\x22,\n    \x22size\x22: 1,\n    \x22date\x22: \x22d\x22\n  \x7d" := by
  decide

/-! ## Glob matching (`fnmatch.fnmatch` on POSIX, where `normcase` is
the identity, so `fnmatch = fnmatchcase`) -/

/-- Does character `c` belong to the bracket-class body `cls` (ranges
`a-b` and single characters)? -/
def classMember (cls : List Char) (c : Char) : Bool :=
  match cls with
  | a :: '-' :: b :: rest => (decide (a ≤ c) && decide (c ≤ b)) || classMember rest c
  | a :: rest => (a == c) || classMember rest c
  | [] => false

/-- Scan for the `]` that closes a bracket class; `none` if there is
none (then `[` is literal, as in `fnmatch.translate`).  Returns the
class body and the rest of the pattern. -/
def findClose : List Char → Option (List Char × List Char)
  | [] => none
  | c :: r =>
    if c = ']' then some ([], r)
    else
      match findClose r with
      | none => none
      | some (cls, rest) => some (c :: cls, rest)

/-- Parse a bracket class after the opening `[`: an optional leading
`!` negates, a leading `]` is literal.  Returns
`(negated, class body, rest of the pattern)`. -/
def scanClass (p : List Char) : Option (Bool × List Char × List Char) :=
  let negp : Bool × List Char := match p with | '!' :: r => (true, r) | _ => (false, p)
  match negp.2 with
  | ']' :: r =>
    match findClose r with
    | none => none
    | some (cls, rest) => some (negp.1, ']' :: cls, rest)
  | other =>
    match findClose other with
    | none => none
    | some (cls, rest) => some (negp.1, cls, rest)

theorem findClose_length {p cls rest : List Char} (h : findClose p = some (cls, rest)) :
    rest.length < p.length := by
  induction p generalizing cls rest with
  | nil => simp [findClose] at h
  | cons c r ih =>
    simp only [findClose] at h
    by_cases hc : c = ']'
    · simp only [hc, if_true, Option.some.injEq, Prod.mk.injEq] at h
      rcases h with ⟨h1, h2⟩
      subst h2
      simp
    · simp only [hc, if_false] at h
      cases hfc : findClose r with
      | none => rw [hfc] at h; simp at h
      | some pr =>
        rw [hfc] at h
        rcases pr with ⟨cls2, rest2⟩
        simp only [Option.some.injEq, Prod.mk.injEq] at h
        rcases h with ⟨h1, h2⟩
        subst h2
        have := ih hfc
        simp only [List.length_cons]
        omega

/-- One step of glob matching with explicit fuel.  Every recursive call
strictly decreases `p.length + s.length` (for the bracket case by
`findClose_length`), so fuel `p.length + s.length + 1` is always
sufficient; `globMatchAux_fuel` below proves this. -/
def globMatchAux : Nat → List Char → List Char → Bool
  | 0, _, _ => false
  | fuel + 1, p, s =>
    match p, s with
    | [], [] => true
    | [], _ :: _ => false
    | '*' :: ps, s =>
      globMatchAux fuel ps s ||
        (match s with
         | [] => false
         | _ :: s2 => globMatchAux fuel ('*' :: ps) s2)
    | '?' :: ps, _ :: s2 => globMatchAux fuel ps s2
    | '?' :: _, [] => false
    | '[' :: ps, c :: s2 =>
      (match scanClass ps with
       | some (neg, cls, rest) => (neg != classMember cls c) && globMatchAux fuel rest s2
       | none => (decide ('[' = c)) && globMatchAux fuel ps s2)
    | '[' :: _, [] => false
    | pc :: ps, c :: s2 => (pc == c) && globMatchAux fuel ps s2
    | _ :: _, [] => false

/-- `fnmatch.fnmatch(name, pattern)` on a POSIX platform: glob
matching of the whole name against the whole pattern with `*`, `?` and
bracket classes. -/
def fnmatch (name pattern : String) : Bool :=
  globMatchAux (pattern.data.length + name.data.length + 1) pattern.data name.data

example : fnmatch ".git" ".*" = true := by decide
example : fnmatch "a.txt" "*.txt" = true := by decide
example : fnmatch "a.txt" "*.md" = false := by decide
example : fnmatch "b7" "b[0-9]" = true := by decide
example : fnmatch "bx" "b[!0-9]" = true := by decide
example : fnmatch "abc" "a?c" = true := by decide

/-! ## Exclusion (`Scanner.should_exclude`, scanner.py lines 82-99) -/

/-- `Scanner.should_exclude(relative_path)`: with a non-empty pattern
list, `True` iff any path segment matches any pattern; with no
patterns, `False` immediately. -/
def should_exclude (exclude_patterns : List String) (relative_path : List String) : Bool :=
  if exclude_patterns.isEmpty then false
  else relative_path.any (fun part => exclude_patterns.any (fun pattern => fnmatch part pattern))

/-! ## The filesystem model

A directory tree with injectable failures.  The constructor argument
order of a directory's entry list is the (arbitrary, platform-chosen)
order in which `os.scandir` enumerates that directory; the walker must
not let it influence the output (claim C9).  `FSEntries` is a mutual
list so that structural recursion (and hence kernel evaluation) works. -/

mutual
inductive FSTree where
  | file (content : List Nat) (mtime : Int) (statFails readFails : Bool)
  | dir (entries : FSEntries) (listFails : Bool)
inductive FSEntries where
  | nil
  | cons (name : String) (child : FSTree) (rest : FSEntries)
end

mutual
/-- Number of nodes of a tree (used as recursion fuel for the walk). -/
def FSTree.size : FSTree → Nat
  | .file _ _ _ _ => 1
  | .dir es _ => 1 + es.size
/-- Total size of an entry list. -/
def FSEntries.size : FSEntries → Nat
  | .nil => 0
  | .cons _ t r => 1 + t.size + r.size
end

/-- The scandir listing of a directory's entries as a plain list of
`(name, node)` pairs, in enumeration order. -/
def FSEntries.toList : FSEntries → List (String × FSTree)
  | .nil => []
  | .cons n t r => (n, t) :: r.toList

/-- `DirEntry.is_dir()` of a node (symlinks are not modelled, so the
`follow_symlinks` flag has no observable effect here). -/
def FSTree.isDirB : FSTree → Bool
  | .file _ _ _ _ => false
  | .dir _ _ => true

theorem size_le_of_mem_toList : ∀ {es : FSEntries} {n : String} {t : FSTree},
    (n, t) ∈ es.toList → t.size < 1 + es.size
  | .nil, n, t, h => by simp [FSEntries.toList] at h
  | .cons m c r, n, t, h => by
    simp only [FSEntries.toList, List.mem_cons] at h
    rcases h with h | h
    · injection h with h1 h2
      subst h2
      simp [FSEntries.size]
      omega
    · have := size_le_of_mem_toList h
      simp [FSEntries.size] at this ⊢
      omega

/-- One file entry yielded by `_walk_directory`:
`(absolute path, relative path, stat)` plus the file's content and
read-failure flag, which determine the later hashing outcome. -/
structure FileEntry where
  abs : List String
  rel : List String
  stat : StatResult
  content : List Nat
  readFails : Bool
deriving DecidableEq, Repr

/-- One `logger.warning` event emitted by `_handle_error` under the
`skip` policy, carrying the offending path (the message's cause is the
corresponding `OSError`). -/
inductive LogEntry where
  | listDirFailed (path : List String)
  | statFailed (path : List String)
  | hashFailed (path : List String)
deriving DecidableEq, Repr

/-- The `for entry in iterator` classification loop of
`_walk_directory` (scanner.py lines 124-139): skip excluded entries,
append directories and files (in scandir order) to two lists. -/
def partitionScan (pats : List String) (relDir : List String)
    (listed : List (String × FSTree)) :
    List (String × FSTree) × List (String × FSTree) :=
  listed.foldl
    (fun acc x =>
      if should_exclude pats (relDir ++ [x.1]) then acc
      else if x.2.isDirB then (acc.1 ++ [x], acc.2) else (acc.1, acc.2 ++ [x]))
    ([], [])

/-- `entry.stat(follow_symlinks=...)` on a scanned node: `none` models
the `OSError` branch.  Only file nodes reach this call (directories go
to the recursion list), so the `dir` case is dead code kept total. -/
def statFields : FSTree → Option (StatResult × List Nat × Bool)
  | .file c m sf rf => if sf then none else some (⟨c.length, m⟩, c, rf)
  | .dir _ _ => none

/-- The successful results of a list of fallible steps, in order. -/
def exceptOks (rs : List (Except ε α)) : List α := rs.filterMap Except.toOption

/-- The errors of a list of fallible steps, in order. -/
def exceptErrors (rs : List (Except ε α)) : List ε :=
  rs.filterMap (fun r => match r with | .error l => some l | .ok _ => none)

/-- Stat one classified file entry: the data of the `entry.stat` call
plus the `yield`, or the logged stat failure. -/
def statFileResult (abs relDir : List String) (x : String × FSTree) : Except LogEntry FileEntry :=
  match statFields x.2 with
  | none => Except.error (LogEntry.statFailed (abs ++ [x.1]))
  | some (st, c, rf) =>
    Except.ok (⟨abs ++ [x.1], relDir ++ [x.1], st, c, rf⟩ : FileEntry)

/-- The sort applied to both file and directory lists:
`sorted(..., key=lambda item: item[0])`, stable, by name. -/
def sortByName (l : List (String × FSTree)) : List (String × FSTree) :=
  sortBy (fun a b => strLeB a.1 b.1) l

/-- `Scanner._walk_directory` under the `skip` policy, with explicit
fuel (`walkDirectory` instantiates it; `walkAux_fuel` shows any fuel
`≥ FSTree.size t` gives the same result): list the directory (a
failure, or a non-directory node, logs and produces nothing), classify
entries, yield the sorted non-excluded files (a stat failure logs and
omits the file), then recurse into the sorted subdirectories. -/
def walkAux (pats : List String) (recursive : Bool) :
    Nat → FSTree → List String → List String → List FileEntry × List LogEntry
  | 0, _, _, _ => ([], [])
  | _ + 1, .file _ _ _ _, abs, _ => ([], [.listDirFailed abs])
  | fuel + 1, .dir es lf, abs, relDir =>
    if lf then ([], [.listDirFailed abs])
    else
      let dirsFiles := partitionScan pats relDir es.toList
      let fileResults := (sortByName dirsFiles.2).map (statFileResult abs relDir)
      let fileEntries := exceptOks fileResults
      let fileLogs := exceptErrors fileResults
      if recursive then
        let subs := (sortByName dirsFiles.1).map
          (fun x => walkAux pats recursive fuel x.2 (abs ++ [x.1]) (relDir ++ [x.1]))
        (fileEntries ++ (subs.map Prod.fst).flatten, fileLogs ++ (subs.map Prod.snd).flatten)
      else (fileEntries, fileLogs)

/-- `Scanner._walk_directory` under `skip`: entries in traversal order
and the log events. -/
def walkDirectory (pats : List String) (recursive : Bool) (t : FSTree)
    (abs relDir : List String) : List FileEntry × List LogEntry :=
  walkAux pats recursive t.size t abs relDir

/-- Sequence a list of fallible steps, stopping at the first error (the
first exception raised in iteration order under the `fail` policy). -/
def seqExcept : List (Except ε α) → Except ε (List α)
  | [] => .ok []
  | x :: xs =>
    match x with
    | .error e => .error e
    | .ok a =>
      match seqExcept xs with
      | .error e => .error e
      | .ok as => .ok (a :: as)

/-- `Scanner._walk_directory` under the `fail` policy (fuel version):
the first `OSError` makes `_handle_error` raise, aborting the whole
generator. -/
def walkFailAux (pats : List String) (recursive : Bool) :
    Nat → FSTree → List String → List String → Except LogEntry (List FileEntry)
  | 0, _, _, _ => .ok []
  | _ + 1, .file _ _ _ _, abs, _ => .error (.listDirFailed abs)
  | fuel + 1, .dir es lf, abs, relDir =>
    if lf then .error (.listDirFailed abs)
    else
      let dirsFiles := partitionScan pats relDir es.toList
      let fileResults := (sortByName dirsFiles.2).map (statFileResult abs relDir)
      match seqExcept fileResults with
      | .error e => .error e
      | .ok fes =>
        if recursive then
          match seqExcept ((sortByName dirsFiles.1).map
              (fun x => walkFailAux pats recursive fuel x.2 (abs ++ [x.1]) (relDir ++ [x.1]))) with
          | .error e => .error e
          | .ok subs => .ok (fes ++ subs.flatten)
        else .ok fes

/-- `Scanner._walk_directory` under `fail`. -/
def walkDirectoryFail (pats : List String) (recursive : Bool) (t : FSTree)
    (abs relDir : List String) : Except LogEntry (List FileEntry) :=
  walkFailAux pats recursive t.size t abs relDir

/-! ## Walker structure lemmas -/

theorem FSTree.size_pos (t : FSTree) : 1 ≤ t.size := by
  cases t with
  | file c m sf rf => simp [FSTree.size]
  | dir es lf => simp [FSTree.size]

/-- The classification loop builds exactly the two in-order sublists of
non-excluded directory and file entries. -/
theorem partitionScan_eq_filters (pats : List String) (relDir : List String)
    (listed : List (String × FSTree)) :
    partitionScan pats relDir listed =
      (listed.filter (fun x => !should_exclude pats (relDir ++ [x.1]) && x.2.isDirB),
       listed.filter (fun x => !should_exclude pats (relDir ++ [x.1]) && !x.2.isDirB)) := by
  have main : ∀ (l : List (String × FSTree)) (d0 f0 : List (String × FSTree)),
      l.foldl
        (fun acc x =>
          if should_exclude pats (relDir ++ [x.1]) then acc
          else if x.2.isDirB then (acc.1 ++ [x], acc.2) else (acc.1, acc.2 ++ [x]))
        (d0, f0) =
      (d0 ++ l.filter (fun x => !should_exclude pats (relDir ++ [x.1]) && x.2.isDirB),
       f0 ++ l.filter (fun x => !should_exclude pats (relDir ++ [x.1]) && !x.2.isDirB)) := by
    intro l
    induction l with
    | nil => intro d0 f0; simp
    | cons x xs ih =>
      intro d0 f0
      by_cases h1 : should_exclude pats (relDir ++ [x.1]) = true
      · simp [List.foldl_cons, List.filter_cons, h1, ih]
      · by_cases h2 : x.2.isDirB = true
        · simp [List.foldl_cons, List.filter_cons, h1, h2, ih]
        · simp [List.foldl_cons, List.filter_cons, h1, h2, ih]
  unfold partitionScan
  rw [main listed [] []]
  simp

theorem mem_partitionScan_dirs {pats relDir : List String}
    {listed : List (String × FSTree)} {x : String × FSTree}
    (h : x ∈ (partitionScan pats relDir listed).1) : x ∈ listed := by
  rw [partitionScan_eq_filters] at h
  exact List.mem_of_mem_filter h

theorem mem_partitionScan_files {pats relDir : List String}
    {listed : List (String × FSTree)} {x : String × FSTree}
    (h : x ∈ (partitionScan pats relDir listed).2) : x ∈ listed := by
  rw [partitionScan_eq_filters] at h
  exact List.mem_of_mem_filter h

/-- The walk result does not depend on the fuel once the fuel reaches
the tree size. -/
theorem walkAux_fuel (pats : List String) (recursive : Bool) :
    ∀ (fuel₁ fuel₂ : Nat) (t : FSTree) (abs relDir : List String),
      t.size ≤ fuel₁ → t.size ≤ fuel₂ →
      walkAux pats recursive fuel₁ t abs relDir = walkAux pats recursive fuel₂ t abs relDir := by
  intro fuel₁
  induction fuel₁ with
  | zero =>
    intro fuel₂ t abs relDir h1 h2
    have := t.size_pos
    omega
  | succ fuel ih =>
    intro fuel₂ t abs relDir h1 h2
    have hpos := t.size_pos
    cases fuel₂ with
    | zero => omega
    | succ fuel₂ =>
      cases t with
      | file c m sf rf => rfl
      | dir es lf =>
        simp only [walkAux]
        have hsub : ∀ x ∈ sortByName (partitionScan pats relDir es.toList).1,
            walkAux pats recursive fuel x.2 (abs ++ [x.1]) (relDir ++ [x.1]) =
            walkAux pats recursive fuel₂ x.2 (abs ++ [x.1]) (relDir ++ [x.1]) := by
          intro x hx
          have hx2 : x ∈ es.toList :=
            mem_partitionScan_dirs ((sortBy_perm _ _).mem_iff.mp hx)
          have hsz : x.2.size < 1 + es.size := by
            rcases x with ⟨n, c⟩
            exact size_le_of_mem_toList hx2
          have hts : FSTree.size (.dir es lf) = 1 + es.size := by simp [FSTree.size]
          rw [hts] at h1 h2
          exact ih fuel₂ x.2 (abs ++ [x.1]) (relDir ++ [x.1]) (by omega) (by omega)
        have hmaps := List.map_congr_left hsub
        by_cases hlf : lf = true
        · simp [hlf]
        · simp [hlf, hmaps]

theorem walkDirectory_file (pats : List String) (recursive : Bool)
    (c : List Nat) (m : Int) (sf rf : Bool) (abs relDir : List String) :
    walkDirectory pats recursive (.file c m sf rf) abs relDir =
      ([], [.listDirFailed abs]) := rfl

/-- The defining equation of the walk on a directory node, with the
recursive occurrences expressed through `walkDirectory` itself. -/
theorem walkDirectory_dir (pats : List String) (recursive : Bool)
    (es : FSEntries) (lf : Bool) (abs relDir : List String) :
    walkDirectory pats recursive (.dir es lf) abs relDir =
      if lf then ([], [.listDirFailed abs])
      else
        let dirsFiles := partitionScan pats relDir es.toList
        let fileResults := (sortByName dirsFiles.2).map (statFileResult abs relDir)
        let fileEntries := exceptOks fileResults
        let fileLogs := exceptErrors fileResults
        if recursive then
          let subs := (sortByName dirsFiles.1).map
            (fun x => walkDirectory pats recursive x.2 (abs ++ [x.1]) (relDir ++ [x.1]))
          (fileEntries ++ (subs.map Prod.fst).flatten, fileLogs ++ (subs.map Prod.snd).flatten)
        else (fileEntries, fileLogs)
    := by
  have hsz : FSTree.size (.dir es lf) = es.size + 1 := by
    simp [FSTree.size]
    omega
  unfold walkDirectory
  rw [hsz]
  simp only [walkAux]
  have hsub : ∀ x ∈ sortByName (partitionScan pats relDir es.toList).1,
      walkAux pats recursive es.size x.2 (abs ++ [x.1]) (relDir ++ [x.1]) =
      walkDirectory pats recursive x.2 (abs ++ [x.1]) (relDir ++ [x.1]) := by
    intro x hx
    have hx2 : x ∈ es.toList :=
      mem_partitionScan_dirs ((sortBy_perm _ _).mem_iff.mp hx)
    have hsz2 : x.2.size < 1 + es.size := by
      rcases x with ⟨n, c⟩
      exact size_le_of_mem_toList hx2
    exact walkAux_fuel pats recursive es.size (x.2.size) x.2 (abs ++ [x.1]) (relDir ++ [x.1])
      (by omega) le_rfl
  have hmaps := List.map_congr_left hsub
  by_cases hlf : lf = true
  · simp [hlf]
  · simp [hlf, hmaps, Function.comp_def, walkDirectory]


@[simp] theorem exceptOks_nil : exceptOks ([] : List (Except ε α)) = [] := rfl

@[simp] theorem exceptOks_cons_ok (a : α) (rs : List (Except ε α)) :
    exceptOks (.ok a :: rs) = a :: exceptOks rs := rfl

@[simp] theorem exceptOks_cons_error (e : ε) (rs : List (Except ε α)) :
    exceptOks (.error e :: rs) = exceptOks rs := rfl

@[simp] theorem exceptErrors_nil : exceptErrors ([] : List (Except ε α)) = [] := rfl

@[simp] theorem exceptErrors_cons_ok (a : α) (rs : List (Except ε α)) :
    exceptErrors (.ok a :: rs) = exceptErrors rs := rfl

@[simp] theorem exceptErrors_cons_error (e : ε) (rs : List (Except ε α)) :
    exceptErrors (.error e :: rs) = e :: exceptErrors rs := rfl

/-- Sequencing fallible steps: succeed with all the values when no step
errs, otherwise fail with the first error. -/
theorem seqExcept_spec (rs : List (Except ε α)) :
    seqExcept rs =
      match exceptErrors rs with
      | [] => .ok (exceptOks rs)
      | e :: _ => .error e := by
  induction rs with
  | nil => rfl
  | cons r rest ih =>
    cases r with
    | error e => simp [seqExcept]
    | ok a =>
      simp only [seqExcept, exceptErrors_cons_ok, exceptOks_cons_ok]
      rw [ih]
      cases h : exceptErrors rest with
      | nil => rfl
      | cons e es => rfl

/-- Sequencing the sub-walks of the sorted subdirectories: if every
child walk follows the skip/fail correspondence, so does their
sequencing, with the first logged error of the concatenated logs. -/
theorem seqExcept_walkList (pats : List String) (fuel : Nat) (abs relDir : List String)
    (l : List (String × FSTree))
    (hf : ∀ x ∈ l, walkFailAux pats true fuel x.2 (abs ++ [x.1]) (relDir ++ [x.1]) =
        match (walkAux pats true fuel x.2 (abs ++ [x.1]) (relDir ++ [x.1])).2 with
        | [] => .ok (walkAux pats true fuel x.2 (abs ++ [x.1]) (relDir ++ [x.1])).1
        | e :: _ => .error e) :
    seqExcept (l.map (fun x => walkFailAux pats true fuel x.2 (abs ++ [x.1]) (relDir ++ [x.1]))) =
      match (l.map (fun x => (walkAux pats true fuel x.2 (abs ++ [x.1]) (relDir ++ [x.1])).2)).flatten with
      | [] => .ok (l.map (fun x => (walkAux pats true fuel x.2 (abs ++ [x.1]) (relDir ++ [x.1])).1))
      | e :: _ => .error e := by
  induction l with
  | nil => rfl
  | cons x xs ih =>
    have hx := hf x (List.mem_cons_self x xs)
    have ihx := ih (fun y hy => hf y (List.mem_cons_of_mem _ hy))
    simp only [List.map_cons, List.flatten_cons]
    cases hhx : (walkAux pats true fuel x.2 (abs ++ [x.1]) (relDir ++ [x.1])).2 with
    | nil =>
      rw [hhx] at hx
      simp only [seqExcept, hx]
      rw [ihx]
      simp only [List.nil_append]
      cases hfl : (xs.map (fun x => (walkAux pats true fuel x.2 (abs ++ [x.1]) (relDir ++ [x.1])).2)).flatten with
      | nil => rfl
      | cons e es => rfl
    | cons e es =>
      rw [hhx] at hx
      simp only [seqExcept, hx]
      rfl

/-- `_walk_directory` under `fail` equals the walk under `skip` when the
latter logs nothing, and otherwise raises the first error the `skip`
walk would log: the first `OSError` of the traversal aborts the whole
generator. -/
theorem walkFailAux_spec (pats : List String) (recursive : Bool) :
    ∀ (fuel : Nat) (t : FSTree) (abs relDir : List String),
      walkFailAux pats recursive fuel t abs relDir =
        match (walkAux pats recursive fuel t abs relDir).2 with
        | [] => .ok (walkAux pats recursive fuel t abs relDir).1
        | e :: _ => .error e := by
  intro fuel
  induction fuel with
  | zero => intro t abs relDir; rfl
  | succ fuel ih =>
    intro t abs relDir
    cases t with
    | file c m sf rf => rfl
    | dir es lf =>
      by_cases hlf : lf = true
      · simp [walkAux, walkFailAux, hlf]
      · simp only [walkAux, walkFailAux, hlf, if_false]
        rw [seqExcept_spec]
        cases hfe : exceptErrors ((sortByName (partitionScan pats relDir es.toList).2).map
            (statFileResult abs relDir)) with
        | cons e es =>
          cases recursive with
          | false => simp [hfe]
          | true => simp [hfe]
        | nil =>
          cases recursive with
          | false => simp [hfe]
          | true =>
            have hmap := seqExcept_walkList pats fuel abs relDir
              (sortByName (partitionScan pats relDir es.toList).1)
              (fun x _ => ih x.2 (abs ++ [x.1]) (relDir ++ [x.1]))
            rw [hmap]
            cases hfl : ((sortByName (partitionScan pats relDir es.toList).1).map
                (fun x => (walkAux pats true fuel x.2 (abs ++ [x.1]) (relDir ++ [x.1])).2)).flatten with
            | nil => simp [hfe, hfl, List.map_map, Function.comp_def]
            | cons e es2 => simp [hfe, hfl, List.map_map, Function.comp_def]

/-! ## The streaming writer (`write_json_array_stream`, scanner.py
lines 322-398)

The per-entry digest outcome is a pure function of the entry
(`Future.result()` returns exactly what `compute_md5(file_path)`
computes or raises, whichever thread runs it), so the emitted trace is
modelled as a list of per-entry outcomes in emission order. -/

/-- The outcome of `compute_md5(file_path)` for one entry (directly in
the sequential branch, through a `Future` in the concurrent branch):
the digest, or the `OSError` of an unreadable file. -/
def computeMd5Result (e : FileEntry) : Except LogEntry String :=
  if e.readFails then .error (.hashFailed e.abs)
  else .ok (compute_md5 e.content 1048576)

/-- Resolve one buffered pair and build its record
(`checksum = old_future.result(); emit(make_record(old_rel, old_stat,
checksum))`): the record, or the exception counted and handled per
policy. -/
def procEntryPar (tz : Int) (e : FileEntry) : Except LogEntry Record :=
  match computeMd5Result e with
  | .error l => .error l
  | .ok checksum => .ok (make_record tz e.rel e.stat checksum)

/-- One iteration of the sequential branch
(`checksum = compute_md5(file_path) if checksum_enabled else ""`). -/
def procEntrySeq (tz : Int) (checksum_enabled : Bool) (e : FileEntry) :
    Except LogEntry Record :=
  if checksum_enabled then procEntryPar tz e
  else .ok (make_record tz e.rel e.stat "")

/-- The inner `while len(buffer) >= pipeline_depth` loop: pop the head
pair, resolve and emit it, until the buffer is shorter than the
pipeline depth.  (For `depth = 0` and an empty buffer the Python loop
would not terminate; the only caller uses `depth = max(4, workers*4)
≥ 4`.) -/
def popLoop (tz : Int) (depth : Nat) : List FileEntry → List (Except LogEntry Record) × List FileEntry
  | [] => ([], [])
  | e :: rest =>
    if depth ≤ (e :: rest).length then
      let out := popLoop tz depth rest
      (procEntryPar tz e :: out.1, out.2)
    else ([], e :: rest)

/-- The `for file_path, relative_path, stat in entries` loop of the
concurrent branch: submit the digest job, append the pair to the FIFO
buffer tail, drain from the head while the buffer is full; after the
loop, drain the remaining buffer in order.  (`executor.submit` itself
cannot raise here, so the scheduling `except` branch is dead in the
model.) -/
def parLoop (tz : Int) (depth : Nat) : List FileEntry → List FileEntry → List (Except LogEntry Record)
  | buffer, [] => buffer.map (procEntryPar tz)
  | buffer, e :: rest =>
    let popped := popLoop tz depth (buffer ++ [e])
    popped.1 ++ parLoop tz depth popped.2 rest

/-- The trace of per-entry outcomes of `write_json_array_stream`, in
emission order: the concurrent FIFO pipeline when checksumming is
enabled with more than one worker, the inline loop otherwise. -/
def writeTrace (tz : Int) (checksum_enabled : Bool) (checksum_workers : Nat)
    (entries : List FileEntry) : List (Except LogEntry Record) :=
  if checksum_enabled = true ∧ 1 < checksum_workers then
    parLoop tz (max 4 (checksum_workers * 4)) [] entries
  else entries.map (procEntrySeq tz checksum_enabled)

/-- The `emit` closure iterated over the emitted records: a `",\n"`
separator before every record after the first, tracked by the `first`
flag. -/
def writerBody (records : List Record) : String :=
  (records.foldl
    (fun acc r => ((if acc.2 then acc.1 else acc.1 ++ ",\n") ++ json_pretty_item r 2, false))
    ("", true)).1

/-- Errors raised by the scanner: `ValueError` for configuration
errors, `RuntimeError` for the errors `_handle_error` raises under the
`fail` policy (whose message depends on the interleaving of the lazy
generator and is not modelled). -/
inductive ScanError where
  | valueError (msg : String)
  | runtimeError
deriving DecidableEq, Repr

instance {ε α : Type} [DecidableEq ε] [DecidableEq α] : DecidableEq (Except ε α) := fun x y =>
  match x, y with
  | .ok a, .ok b =>
    if h : a = b then isTrue (by rw [h]) else isFalse (fun hc => h (Except.ok.inj hc))
  | .error a, .error b =>
    if h : a = b then isTrue (by rw [h]) else isFalse (fun hc => h (Except.error.inj hc))
  | .ok _, .error _ => isFalse (fun hc => Except.noConfusion hc)
  | .error _, .ok _ => isFalse (fun hc => Except.noConfusion hc)

/-- `write_json_array_stream(output_file, entries, checksum_enabled,
checksum_workers, on_error)`: returns the file content written, the
`(written, skipped)` counters and the warnings logged; under the
`fail` policy the first per-entry error aborts with a `RuntimeError`
instead. -/
def write_json_array_stream (tz : Int) (on_error : String) (checksum_enabled : Bool)
    (checksum_workers : Nat) (entries : List FileEntry) :
    Except ScanError (String × Nat × Nat × List LogEntry) :=
  let trace := writeTrace tz checksum_enabled checksum_workers entries
  if on_error = "fail" then
    match exceptErrors trace with
    | [] => .ok ("[\n" ++ writerBody (exceptOks trace) ++ "\n]\n",
        (exceptOks trace).length, (exceptErrors trace).length, [])
    | _ :: _ => .error .runtimeError
  else
    .ok ("[\n" ++ writerBody (exceptOks trace) ++ "\n]\n",
      (exceptOks trace).length, (exceptErrors trace).length, exceptErrors trace)

/-! ## Entry points (`files2json`, scanner.py lines 401-444, and
`Scanner.scan_directory`, lines 216-264) -/

/-- `build_output_filename(prefix)`: `f"{prefix}_{timestamp}.json"`
with the `%Y%m%d_%H%M%S` wall-clock timestamp passed explicitly. -/
def build_output_filename (pre : String) (timestamp : String) : String :=
  pre ++ "_" ++ timestamp ++ ".json"

/-- `_iter_file_entries` on the root path under `skip`: a missing root
makes `os.scandir` raise `FileNotFoundError`, handled like any listing
failure. -/
def walkRoot (pats : List String) (recursive : Bool) (root : Option FSTree)
    (rootPath : List String) : List FileEntry × List LogEntry :=
  match root with
  | none => ([], [.listDirFailed rootPath])
  | some t => walkDirectory pats recursive t rootPath []

/-- `_iter_file_entries` on the root path under `fail`. -/
def walkRootFail (pats : List String) (recursive : Bool) (root : Option FSTree)
    (rootPath : List String) : Except LogEntry (List FileEntry) :=
  match root with
  | none => .error (.listDirFailed rootPath)
  | some t => walkDirectoryFail pats recursive t rootPath []

/-- `files2json(input_dir, output_dir, ...)`: validate `on_error` and
`checksum_workers`, build the timestamped output name, then walk and
stream-write.  The root directory is *not* validated here.  Returns
`(output filename, file content, written, skipped, logged warnings)`.
(The walk is lazy in the code; which of several pending errors raises
first under `fail` is not modelled, only that the run aborts.) -/
def files2json (tz : Int) (timestamp : String) (root : Option FSTree)
    (rootPath : List String) (output_pre : String) (recursive : Bool)
    (calculate_checksum : Bool) (exclude_patterns : List String)
    (checksum_workers : Nat) (on_error : String) :
    Except ScanError (String × String × Nat × Nat × List LogEntry) :=
  if ¬(on_error = "fail" ∨ on_error = "skip") then
    .error (.valueError "on_error must be fail or skip")
  else if checksum_workers < 1 then
    .error (.valueError "checksum_workers must be >= 1")
  else
    let output_file := build_output_filename output_pre timestamp
    if on_error = "fail" then
      match walkRootFail exclude_patterns recursive root rootPath with
      | .error _ => .error .runtimeError
      | .ok entries =>
        match write_json_array_stream tz "fail" calculate_checksum
            (if calculate_checksum then checksum_workers else 1) entries with
        | .error e => .error e
        | .ok (content, w, sk, lg) => .ok (output_file, content, w, sk, lg)
    else
      let walked := walkRoot exclude_patterns recursive root rootPath
      match write_json_array_stream tz "skip" calculate_checksum
          (if calculate_checksum then checksum_workers else 1) walked.1 with
      | .error e => .error e
      | .ok (content, w, sk, lg) => .ok (output_file, content, w, sk, walked.2 ++ lg)

/-- Does the root path exist (`directory.exists()`)? -/
def rootExists (root : Option FSTree) : Bool := root.isSome

/-- Is the root path a directory (`directory.is_dir()`)? -/
def rootIsDir (root : Option FSTree) : Bool :=
  match root with
  | some (.dir _ _) => true
  | _ => false

/-- `Path.suffix` of a file name: from the last dot, unless it is the
first or past-the-last character. -/
def rfindDotAux : List Char → Nat → Option Nat
  | [], _ => none
  | c :: cs, i =>
    match rfindDotAux cs (i + 1) with
    | some j => some j
    | none => if c = '.' then some i else none

/-- `Path(name).suffix`. -/
def pathSuffix (name : String) : String :=
  match rfindDotAux name.data 0 with
  | some i => if 0 < i ∧ i < name.data.length - 1 then String.mk (name.data.drop i) else ""
  | none => ""

example : pathSuffix "a.txt" = ".txt" := by decide
example : pathSuffix ".git" = "" := by decide
example : pathSuffix "noext" = "" := by decide

/-- The `ScannedFile` model built by `Scanner.scan_file`. -/
structure ScannedFile where
  path : String
  name : String
  extension : String
  size_bytes : Nat
  modified_mtime : Int
  is_hidden : Bool
  checksum : Option String
deriving DecidableEq, Repr

/-- `Scanner.scan_file(file_path, calculate_checksum, stat)`: builds
the metadata record; `compute_md5` may raise (`readFails`), which the
caller `_iter_scanned_files` handles per policy. -/
def scan_file (calculate_checksum : Bool) (e : FileEntry) : Except LogEntry ScannedFile :=
  if calculate_checksum ∧ e.readFails then .error (.hashFailed e.abs)
  else
    let name := pathName e.abs
    .ok { path := pathStr e.abs
          name := name
          extension := pathSuffix name
          size_bytes := e.stat.st_size
          modified_mtime := e.stat.st_mtime
          is_hidden := name.startsWith "."
          checksum := if calculate_checksum then some (compute_md5 e.content 1048576) else none }

/-- `Scanner.scan_directory(directory, ...)`: `ValueError` for a
missing or non-directory root *before any traversal*, then the scan;
per-file errors per policy (`skip` logs and continues, `fail`
aborts). -/
def scan_directory (root : Option FSTree) (exclude_patterns : List String)
    (rootPath : List String) (recursive : Bool) (calculate_checksum : Bool)
    (on_error : String) : Except ScanError (List ScannedFile × List LogEntry) :=
  if ¬ rootExists root then .error (.valueError "Directory does not exist")
  else if ¬ rootIsDir root then .error (.valueError "Path is not a directory")
  else
    if on_error = "fail" then
      match walkRootFail exclude_patterns recursive root rootPath with
      | .error _ => .error .runtimeError
      | .ok entries =>
        match seqExcept (entries.map (scan_file calculate_checksum)) with
        | .error _ => .error .runtimeError
        | .ok sfs => .ok (sfs, [])
    else
      let walked := walkRoot exclude_patterns recursive root rootPath
      let results := walked.1.map (scan_file calculate_checksum)
      .ok (exceptOks results, walked.2 ++ exceptErrors results)

/-! ## Writer structure lemmas -/

/-- The drain loop pops exactly the prefix that brings the buffer back
under the pipeline depth, emitting it head-first: pure FIFO
discipline. -/
theorem popLoop_spec (tz : Int) (depth : Nat) (buf : List FileEntry) :
    popLoop tz depth buf =
      ((buf.take (buf.length + 1 - depth)).map (procEntryPar tz),
        buf.drop (buf.length + 1 - depth)) := by
  induction buf with
  | nil => simp [popLoop]
  | cons e rest ih =>
    simp only [popLoop]
    by_cases h : depth ≤ (e :: rest).length
    · simp only [h, if_true, ih]
      have h2 : depth ≤ rest.length + 1 := by simpa using h
      have h1 : (e :: rest).length + 1 - depth = (rest.length + 1 - depth) + 1 := by
        simp only [List.length_cons]
        omega
      rw [h1]
      simp [List.take_succ_cons, List.drop_succ_cons]
    · simp only [h, if_false]
      have h1 : (e :: rest).length + 1 - depth = 0 := by
        simp only [List.length_cons] at h ⊢
        omega
      rw [h1]
      simp

/-- The FIFO main loop emits exactly one outcome per entry, in arrival
(= traversal) order, independently of the pipeline depth: first the
pending buffer in order, then each entry in order. -/
theorem parLoop_spec (tz : Int) (depth : Nat) :
    ∀ (entries buffer : List FileEntry),
      parLoop tz depth buffer entries =
        buffer.map (procEntryPar tz) ++ entries.map (procEntryPar tz) := by
  intro entries
  induction entries with
  | nil => intro buffer; simp [parLoop]
  | cons e rest ih =>
    intro buffer
    simp only [parLoop, popLoop_spec, ih]
    rw [← List.map_append, ← List.map_append, ← List.append_assoc, List.take_append_drop]
    simp

/-- Master order lemma: whatever the worker count, the writer's trace
is the entry list mapped through the per-entry outcome — the FIFO
pop-head discipline makes emission order equal arrival order. -/
theorem writeTrace_eq_map (tz : Int) (checksum_enabled : Bool) (checksum_workers : Nat)
    (entries : List FileEntry) :
    writeTrace tz checksum_enabled checksum_workers entries =
      entries.map (procEntrySeq tz checksum_enabled) := by
  unfold writeTrace
  by_cases h : checksum_enabled = true ∧ 1 < checksum_workers
  · simp only [h, if_true, parLoop_spec, List.map_nil, List.nil_append]
    rcases h with ⟨he, hw⟩
    subst he
    apply List.map_congr_left
    intro e _
    simp [procEntrySeq]
  · simp [h]

/-- The `first`-flag fold writes the records joined by `",\n"`. -/
def joinWithCommas : List String → String
  | [] => ""
  | [x] => x
  | x :: xs => x ++ ",\n" ++ joinWithCommas xs

/-- Each element of the join after the first, with its separator. -/
def prefixCommas : List String → String
  | [] => ""
  | x :: xs => ",\n" ++ x ++ prefixCommas xs

theorem joinWithCommas_cons (x : String) (xs : List String) :
    joinWithCommas (x :: xs) = x ++ prefixCommas xs := by
  induction xs generalizing x with
  | nil => simp [joinWithCommas, prefixCommas]
  | cons y ys ih =>
    simp only [joinWithCommas, prefixCommas]
    rw [ih y]
    simp [String.append_assoc]

theorem writerBody_eq_join (records : List Record) :
    writerBody records = joinWithCommas (records.map (fun r => json_pretty_item r 2)) := by
  have aux : ∀ (rs : List Record) (s : String),
      (rs.foldl
        (fun acc r => ((if acc.2 then acc.1 else acc.1 ++ ",\n") ++ json_pretty_item r 2, false))
        (s, false)).1 =
      s ++ prefixCommas (rs.map (fun r => json_pretty_item r 2)) := by
    intro rs
    induction rs with
    | nil => intro s; simp [prefixCommas]
    | cons r rest ih =>
      intro s
      simp only [List.foldl_cons, if_false, List.map_cons, prefixCommas]
      rw [ih]
      simp [String.append_assoc]
  cases records with
  | nil => rfl
  | cons r rest =>
    unfold writerBody
    simp only [List.foldl_cons, if_true, List.map_cons]
    rw [aux, joinWithCommas_cons]
    simp

/-! ## Accounting and digest-format lemmas -/

theorem exceptOks_map_eq_filterMap {β : Type} (f : β → Except ε α) (l : List β) :
    exceptOks (l.map f) = l.filterMap (fun x => (f x).toOption) := by
  unfold exceptOks
  rw [List.filterMap_map]
  rfl

theorem exceptOks_length_add_exceptErrors_length (rs : List (Except ε α)) :
    (exceptOks rs).length + (exceptErrors rs).length = rs.length := by
  induction rs with
  | nil => rfl
  | cons r rest ih =>
    cases r with
    | ok a => simp only [exceptOks_cons_ok, exceptErrors_cons_ok, List.length_cons]; omega
    | error e => simp only [exceptOks_cons_error, exceptErrors_cons_error, List.length_cons]; omega

theorem length_flatMap_byteToHex (l : List Nat) :
    (l.flatMap byteToHex).length = 2 * l.length := by
  induction l with
  | nil => rfl
  | cons b rest ih =>
    simp only [List.flatMap_cons, List.length_append, ih, byteToHex, List.length_cons,
      List.length_nil]
    omega

theorem md5StateBytes_length (st : Nat × Nat × Nat × Nat) :
    (md5StateBytes st).length = 16 := by
  simp [md5StateBytes, le32]

theorem le32_lt (x : Nat) : ∀ b ∈ le32 x, b < 256 := by
  intro b hb
  simp only [le32, List.mem_cons, List.not_mem_nil, or_false] at hb
  omega

theorem md5StateBytes_lt (st : Nat × Nat × Nat × Nat) :
    ∀ b ∈ md5StateBytes st, b < 256 := by
  intro b hb
  simp only [md5StateBytes, List.mem_append] at hb
  rcases hb with ((hb | hb) | hb) | hb <;> exact le32_lt _ b hb

theorem hexDigitChar_mem_hex {n : Nat} (h : n < 16) :
    hexDigitChar n ∈ ("0123456789abcdef").data := by
  have hall : ∀ m, m < 16 → hexDigitChar m ∈ ("0123456789abcdef").data := by decide
  exact hall n h

/-- The digest is 32 characters long. -/
theorem md5Hex_length (msg : List Nat) : (md5Hex msg).length = 32 := by
  unfold md5Hex
  show (String.mk _).length = 32
  rw [show ∀ l : List Char, (String.mk l).length = l.length from fun l => rfl]
  rw [length_flatMap_byteToHex, md5StateBytes_length]

/-- The digest uses only lowercase hexadecimal characters. -/
theorem md5Hex_lowercase_hex (msg : List Nat) :
    ∀ c ∈ (md5Hex msg).data, c ∈ ("0123456789abcdef").data := by
  intro c hc
  unfold md5Hex at hc
  rw [show ∀ l : List Char, (String.mk l).data = l from fun l => rfl] at hc
  rcases List.mem_flatMap.mp hc with ⟨b, hb, hcb⟩
  have hblt : b < 256 := md5StateBytes_lt _ b hb
  simp only [byteToHex, List.mem_cons, List.not_mem_nil, or_false] at hcb
  rcases hcb with h | h <;> subst h
  · exact hexDigitChar_mem_hex (Nat.div_lt_of_lt_mul (by omega))
  · exact hexDigitChar_mem_hex (Nat.mod_lt _ (by omega))

/-! ## Sample data for concrete instantiations -/

/-- A readable 5-byte file `a.txt` containing `"hello"`. -/
def sampleGood : FileEntry :=
  ⟨["root", "a.txt"], ["a.txt"], ⟨5, 1000000000⟩, [104, 101, 108, 108, 111], false⟩

/-- A file whose content read fails mid-hash. -/
def sampleBad : FileEntry :=
  ⟨["root", "bad.bin"], ["bad.bin"], ⟨3, 1000000000⟩, [1, 2, 3], true⟩

/-! ## Claims -/

/-- C1: with checksumming enabled, for every worker count `w ≥ 1` the
writer emits exactly the same outcome sequence as the sequential
branch (`checksum_workers = 1`) on the same entries, and the emitted
records are the consumed entries' records in the entries' (traversal)
order — the FIFO pop-head discipline, not pool completion order,
fixes the emission order. -/
theorem claim_C1 (tz : Int) (entries : List FileEntry) (w : Nat) (_hw : 1 ≤ w) :
    writeTrace tz true w entries = writeTrace tz true 1 entries ∧
    exceptOks (writeTrace tz true w entries) =
      entries.filterMap (fun e => (procEntrySeq tz true e).toOption) := by
  refine ⟨?_, ?_⟩
  · rw [writeTrace_eq_map, writeTrace_eq_map]
  · rw [writeTrace_eq_map, exceptOks_map_eq_filterMap]

theorem claim_C1_witness :
    writeTrace 0 true 8 [sampleGood, sampleBad] = writeTrace 0 true 1 [sampleGood, sampleBad] ∧
    exceptOks (writeTrace 0 true 8 [sampleGood, sampleBad]) =
      [sampleGood, sampleBad].filterMap (fun e => (procEntrySeq 0 true e).toOption) :=
  claim_C1 0 [sampleGood, sampleBad] 8 (by decide)

/-- C10: under the `skip` policy the writer consumes every entry and
each consumed entry contributes exactly one increment to exactly one
counter: `written + skipped = entries.length`, `written` is the number
of records serialized into the array (the body is built from exactly
the `written` successful records), and `skipped` the number of
per-entry errors. -/
theorem claim_C10 (tz : Int) (checksum_enabled : Bool) (checksum_workers : Nat)
    (entries : List FileEntry) (content : String) (written skipped : Nat)
    (logs : List LogEntry)
    (h : write_json_array_stream tz "skip" checksum_enabled checksum_workers entries =
      .ok (content, written, skipped, logs)) :
    written + skipped = entries.length ∧
    written = (exceptOks (writeTrace tz checksum_enabled checksum_workers entries)).length ∧
    skipped = (exceptErrors (writeTrace tz checksum_enabled checksum_workers entries)).length ∧
    content = "[\n" ++
      writerBody (exceptOks (writeTrace tz checksum_enabled checksum_workers entries)) ++
      "\n]\n" := by
  have hval : write_json_array_stream tz "skip" checksum_enabled checksum_workers entries =
      .ok ("[\n" ++
          writerBody (exceptOks (writeTrace tz checksum_enabled checksum_workers entries)) ++
          "\n]\n",
        (exceptOks (writeTrace tz checksum_enabled checksum_workers entries)).length,
        (exceptErrors (writeTrace tz checksum_enabled checksum_workers entries)).length,
        exceptErrors (writeTrace tz checksum_enabled checksum_workers entries)) := by
    unfold write_json_array_stream
    rw [if_neg (by decide : ¬("skip" : String) = "fail")]
  rw [hval] at h
  simp only [Except.ok.injEq, Prod.mk.injEq] at h
  obtain ⟨hc, hw, hs, hl⟩ := h
  subst hc
  subst hw
  subst hs
  refine ⟨?_, rfl, rfl, rfl⟩
  have hlen := exceptOks_length_add_exceptErrors_length
    (writeTrace tz checksum_enabled checksum_workers entries)
  have hlen2 : (writeTrace tz checksum_enabled checksum_workers entries).length =
      entries.length := by
    rw [writeTrace_eq_map]
    simp
  omega

theorem claim_C10_witness :
    0 + 1 = 1 ∧
    (0 : Nat) = (exceptOks (writeTrace 0 true 1 [sampleBad])).length ∧
    (1 : Nat) = (exceptErrors (writeTrace 0 true 1 [sampleBad])).length ∧
    "[\n\n]\n" = "[\n" ++ writerBody (exceptOks (writeTrace 0 true 1 [sampleBad])) ++ "\n]\n" :=
  claim_C10 0 true 1 [sampleBad] "[\n\n]\n" 0 1 [.hashFailed ["root", "bad.bin"]] (by decide)

/-- C4: every emitted record's `checksum` is, when checksumming is
enabled, the streaming fixed-size-chunk (1 MiB) MD5 of the file's full
byte content, as 32 lowercase-hexadecimal characters; when disabled it
is the empty string. -/
theorem claim_C4 (tz : Int) (checksum_enabled : Bool) (checksum_workers : Nat)
    (entries : List FileEntry) (r : Record)
    (hr : r ∈ exceptOks (writeTrace tz checksum_enabled checksum_workers entries)) :
    (checksum_enabled = true → ∃ e ∈ entries, e.readFails = false ∧
      r.checksum = compute_md5 e.content 1048576 ∧
      r.checksum = md5Hex e.content ∧
      r.checksum.length = 32 ∧
      ∀ c ∈ r.checksum.data, c ∈ ("0123456789abcdef").data) ∧
    (checksum_enabled = false → r.checksum = "") := by
  rw [writeTrace_eq_map, exceptOks_map_eq_filterMap] at hr
  rcases List.mem_filterMap.mp hr with ⟨e, he, hre⟩
  constructor
  · intro hen
    subst hen
    have hre2 : (procEntryPar tz e).toOption = some r := hre
    by_cases hrf : e.readFails = true
    · have : (procEntryPar tz e).toOption = none := by
        simp [procEntryPar, computeMd5Result, hrf, Except.toOption]
      rw [this] at hre2
      exact absurd hre2 (by simp)
    · have hrf2 : e.readFails = false := by simpa using hrf
      have hrec : procEntryPar tz e =
          .ok (make_record tz e.rel e.stat (compute_md5 e.content 1048576)) := by
        simp [procEntryPar, computeMd5Result, hrf2]
      rw [hrec] at hre2
      have hmk := Option.some.inj hre2
      have hck : r.checksum = compute_md5 e.content 1048576 := by
        rw [← hmk]
        rfl
      have hmd : r.checksum = md5Hex e.content := by
        rw [hck]
        exact compute_md5_eq_md5Hex (by omega) e.content
      refine ⟨e, he, hrf2, hck, hmd, ?_, ?_⟩
      · rw [hmd, md5Hex_length]
      · intro c hc
        rw [hmd] at hc
        exact md5Hex_lowercase_hex e.content c hc
  · intro hen
    subst hen
    have hre2 : some (make_record tz e.rel e.stat "") = some r := hre
    rw [← Option.some.inj hre2]
    rfl

theorem claim_C4_witness :
    (true = true → ∃ e ∈ [sampleGood], e.readFails = false ∧
      Record.checksum (make_record 0 ["a.txt"] ⟨5, 1000000000⟩
          "5d41402abc4b2a76b9719d911017c592") = compute_md5 e.content 1048576 ∧
      Record.checksum (make_record 0 ["a.txt"] ⟨5, 1000000000⟩
          "5d41402abc4b2a76b9719d911017c592") = md5Hex e.content ∧
      (Record.checksum (make_record 0 ["a.txt"] ⟨5, 1000000000⟩
          "5d41402abc4b2a76b9719d911017c592")).length = 32 ∧
      ∀ c ∈ (Record.checksum (make_record 0 ["a.txt"] ⟨5, 1000000000⟩
          "5d41402abc4b2a76b9719d911017c592")).data, c ∈ ("0123456789abcdef").data) ∧
    (true = false → Record.checksum (make_record 0 ["a.txt"] ⟨5, 1000000000⟩
        "5d41402abc4b2a76b9719d911017c592") = "") :=
  claim_C4 0 true 4 [sampleGood]
    (make_record 0 ["a.txt"] ⟨5, 1000000000⟩ "5d41402abc4b2a76b9719d911017c592")
    (by decide)

/-- C6: the writer writes `[` + newline, then the records in arrival
order as 2-space-indented JSON objects each further indented by two
spaces, separated by `",\n"` (a separator before every record after
the first), then newline + `]` + newline; it returns the
`(written, skipped)` pair; and every serialized object's field order
is `path, filename, complete_path, checksum, size, date`. -/
theorem claim_C6 (tz : Int) (checksum_enabled : Bool) (checksum_workers : Nat)
    (entries : List FileEntry) (content : String) (written skipped : Nat)
    (logs : List LogEntry)
    (h : write_json_array_stream tz "skip" checksum_enabled checksum_workers entries =
      .ok (content, written, skipped, logs)) :
    content = "[\n" ++
      joinWithCommas
        ((exceptOks (writeTrace tz checksum_enabled checksum_workers entries)).map
          (fun r => json_pretty_item r 2)) ++ "\n]\n" ∧
    written = (exceptOks (writeTrace tz checksum_enabled checksum_workers entries)).length ∧
    skipped = (exceptErrors (writeTrace tz checksum_enabled checksum_workers entries)).length ∧
    (∀ r : Record, (recordFields r).map Prod.fst =
      ["path", "filename", "complete_path", "checksum", "size", "date"]) ∧
    (∀ r : Record, json_pretty_item r 2 =
      String.intercalate "\n"
        ((splitLinesChars (json_dumps_record r).data).map (fun l => "  " ++ String.mk l))) := by
  have hval : write_json_array_stream tz "skip" checksum_enabled checksum_workers entries =
      .ok ("[\n" ++
          writerBody (exceptOks (writeTrace tz checksum_enabled checksum_workers entries)) ++
          "\n]\n",
        (exceptOks (writeTrace tz checksum_enabled checksum_workers entries)).length,
        (exceptErrors (writeTrace tz checksum_enabled checksum_workers entries)).length,
        exceptErrors (writeTrace tz checksum_enabled checksum_workers entries)) := by
    unfold write_json_array_stream
    rw [if_neg (by decide : ¬("skip" : String) = "fail")]
  rw [hval] at h
  simp only [Except.ok.injEq, Prod.mk.injEq] at h
  obtain ⟨hc, hw, hs, hl⟩ := h
  subst hc
  subst hw
  subst hs
  refine ⟨?_, rfl, rfl, fun r => rfl, fun r => rfl⟩
  rw [writerBody_eq_join]

theorem claim_C6_witness :
    "[\n\n]\n" = "[\n" ++
      joinWithCommas
        ((exceptOks (writeTrace 0 true 1 ([] : List FileEntry))).map
          (fun r => json_pretty_item r 2)) ++ "\n]\n" ∧
    (0 : Nat) = (exceptOks (writeTrace 0 true 1 ([] : List FileEntry))).length ∧
    (0 : Nat) = (exceptErrors (writeTrace 0 true 1 ([] : List FileEntry))).length ∧
    (∀ r : Record, (recordFields r).map Prod.fst =
      ["path", "filename", "complete_path", "checksum", "size", "date"]) ∧
    (∀ r : Record, json_pretty_item r 2 =
      String.intercalate "\n"
        ((splitLinesChars (json_dumps_record r).data).map (fun l => "  " ++ String.mk l))) :=
  claim_C6 0 true 1 [] "[\n\n]\n" 0 0 [] (by decide)

/-- The record the spec describes, built directly from the spec's
wording: `path` = parent directory portion (empty for root-level
files), `filename` = base name, `complete_path` = full relative path
with `/` separators, `checksum` = digest or empty, `size` = byte
count, `date` = local-time calendar date of the mtime. -/
def specRecord (tz : Int) (rel : List String) (stat : StatResult) (checksum : String) : Record :=
  { path := if rel.length ≤ 1 then "" else joinSegs rel.dropLast
    filename := rel.getLastD ""
    complete_path := joinSegs rel
    checksum := checksum
    size := stat.st_size
    date := dateStr tz stat.st_mtime }

theorem mem_of_mem_dropLast {l : List α} {x : α} (h : x ∈ l.dropLast) : x ∈ l := by
  induction l with
  | nil => simp at h
  | cons a rest ih =>
    cases rest with
    | nil => simp [List.dropLast] at h
    | cons b rest2 =>
      rw [List.dropLast_cons₂] at h
      rcases List.mem_cons.mp h with rfl | h
      · exact List.mem_cons_self _ _
      · exact List.mem_cons_of_mem _ (ih h)

theorem joinSegs_length_pos {l : List String} (hne : l ≠ [])
    (hseg : ∀ s ∈ l, s ≠ "") : 1 ≤ (joinSegs l).length := by
  cases l with
  | nil => exact absurd rfl hne
  | cons x rest =>
    cases rest with
    | nil =>
      have : x ≠ "" := hseg x (List.mem_cons_self _ _)
      simp only [joinSegs]
      cases hx : x.data with
      | nil => exact absurd (by cases x; simp_all) this
      | cons c cs =>
        have : x.length = x.data.length := rfl
        simp [String.length, hx]
    | cons y rest2 =>
      simp only [joinSegs, String.length_append]
      have hslash : ("/" : String).length = 1 := by decide
      omega

theorem joinSegs_ne_dot {l : List String} (hne : l ≠ [])
    (hseg : ∀ s ∈ l, s ≠ "" ∧ s ≠ ".") : joinSegs l ≠ "." := by
  cases l with
  | nil => exact absurd rfl hne
  | cons x rest =>
    cases rest with
    | nil => exact (hseg x (List.mem_cons_self _ _)).2
    | cons y rest2 =>
      intro hcontra
      have hlen : (joinSegs (x :: y :: rest2)).length = ("." : String).length := by
        rw [hcontra]
      have hx : x ≠ "" := (hseg x (List.mem_cons_self _ _)).1
      have hxlen : 1 ≤ x.length := by
        cases hd : x.data with
        | nil => exact absurd (by cases x; simp_all) hx
        | cons c cs =>
          have : x.length = x.data.length := rfl
          simp [this, hd]
      have hrest : 1 ≤ (joinSegs (y :: rest2)).length :=
        joinSegs_length_pos (by simp) (fun s hs => (hseg s (List.mem_cons_of_mem _ hs)).1)
      simp only [joinSegs, String.length_append] at hlen
      have hdot : ("." : String).length = 1 := by decide
      have hslash : ("/" : String).length = 1 := by decide
      omega

/-- C5: `make_record` is a pure function computing exactly the record
the spec describes, for every non-empty relative path whose segments
are real file names (non-empty, not `"."` — which is what the walker
produces). -/
theorem claim_C5 (tz : Int) (rel : List String) (stat : StatResult) (checksum : String)
    (hne : rel ≠ []) (hseg : ∀ s ∈ rel, s ≠ "" ∧ s ≠ ".") :
    make_record tz rel stat checksum = specRecord tz rel stat checksum := by
  unfold make_record specRecord
  cases rel with
  | nil => exact absurd rfl hne
  | cons x rest =>
    cases rest with
    | nil => rfl
    | cons y rest2 =>
      have hdl : (x :: y :: rest2).dropLast ≠ [] := by
        rw [List.dropLast_cons₂]
        simp
      have hnd : pathStr ((x :: y :: rest2).dropLast) = joinSegs ((x :: y :: rest2).dropLast) := by
        unfold pathStr
        cases hdd : (x :: y :: rest2).dropLast with
        | nil => exact absurd hdd hdl
        | cons a as => rfl
      have hnotdot : joinSegs ((x :: y :: rest2).dropLast) ≠ "." :=
        joinSegs_ne_dot hdl (fun s hs => hseg s (mem_of_mem_dropLast hs))
      have hlen : ¬ (x :: y :: rest2).length ≤ 1 := by simp
      simp only [hnd, hlen, if_false, if_neg hnotdot]
      rfl

theorem claim_C5_witness :
    make_record 0 ["sub", "b.bin"] ⟨0, 1000000000⟩ "d41d8cd98f00b204e9800998ecf8427e" =
      specRecord 0 ["sub", "b.bin"] ⟨0, 1000000000⟩ "d41d8cd98f00b204e9800998ecf8427e" :=
  claim_C5 0 ["sub", "b.bin"] ⟨0, 1000000000⟩ "d41d8cd98f00b204e9800998ecf8427e"
    (by decide) (by decide)

/-- Inverting a successful stat step: the entry's paths extend the
directory's by the entry name. -/
theorem statFileResult_ok_inv {abs relDir : List String} {x : String × FSTree} {e : FileEntry}
    (h : statFileResult abs relDir x = .ok e) :
    e.abs = abs ++ [x.1] ∧ e.rel = relDir ++ [x.1] := by
  unfold statFileResult at h
  cases hsf : statFields x.2 with
  | none =>
    rw [hsf] at h
    exact Except.noConfusion h
  | some v =>
    rw [hsf] at h
    rcases v with ⟨st, c, rf⟩
    have := Except.ok.inj h
    rw [← this]
    exact ⟨rfl, rfl⟩

theorem toOption_eq_some_iff {r : Except ε α} {a : α} :
    r.toOption = some a ↔ r = .ok a := by
  cases r with
  | ok b => simp [Except.toOption]
  | error e => simp [Except.toOption]

/-- With a non-empty pattern list, a path that passed `should_exclude`
has no segment matching any pattern (with an empty list the second
statement is vacuous). -/
theorem should_exclude_false_no_match {pats parts : List String}
    (h : should_exclude pats parts = false) :
    ∀ part ∈ parts, ∀ p ∈ pats, fnmatch part p = false := by
  intro part hpart p hp
  unfold should_exclude at h
  have hemp : pats.isEmpty = false := by
    cases pats with
    | nil => simp at hp
    | cons q qs => rfl
  rw [hemp] at h
  simp only [Bool.false_eq_true, if_false] at h
  rw [List.any_eq_false] at h
  have h3 := h part hpart
  rw [List.any_eq_true] at h3
  push_neg at h3
  simpa using h3 p hp

/-- Every file entry yielded by the walk passed its own
`should_exclude` check (whose loop inspects every segment of the
entry's root-relative path). -/
theorem walkAux_not_excluded (pats : List String) (recursive : Bool) :
    ∀ (fuel : Nat) (t : FSTree) (abs relDir : List String) (e : FileEntry),
      e ∈ (walkAux pats recursive fuel t abs relDir).1 →
      should_exclude pats e.rel = false := by
  intro fuel
  induction fuel with
  | zero =>
    intro t abs relDir e he
    simp [walkAux] at he
  | succ fuel ih =>
    intro t abs relDir e he
    cases t with
    | file c m sf rf => simp [walkAux] at he
    | dir es lf =>
      by_cases hlf : lf = true
      · simp [walkAux, hlf] at he
      · have hfiles : ∀ e2 : FileEntry,
            e2 ∈ exceptOks ((sortByName (partitionScan pats relDir es.toList).2).map
              (statFileResult abs relDir)) →
            should_exclude pats e2.rel = false := by
          intro e2 he2
          rw [exceptOks_map_eq_filterMap] at he2
          rcases List.mem_filterMap.mp he2 with ⟨x, hx, hsome⟩
          rw [toOption_eq_some_iff] at hsome
          have hrel := (statFileResult_ok_inv hsome).2
          have hx2 : x ∈ (partitionScan pats relDir es.toList).2 := mem_sortBy.mp hx
          rw [partitionScan_eq_filters] at hx2
          have hcond := List.of_mem_filter hx2
          rw [hrel]
          rcases (Bool.and_eq_true _ _).mp hcond with ⟨hnotex, _⟩
          simpa using hnotex
        cases recursive with
        | false =>
          simp only [walkAux, hlf, Bool.false_eq_true, if_false] at he
          exact hfiles e he
        | true =>
          simp only [walkAux, hlf, Bool.false_eq_true, if_false, if_true] at he
          rcases List.mem_append.mp he with he | he
          · exact hfiles e he
          · rcases List.mem_flatten.mp he with ⟨sub, hsub, hesub⟩
            rcases List.mem_map.mp hsub with ⟨pair, hpair, hpairsub⟩
            rcases List.mem_map.mp hpair with ⟨x, hx, hxpair⟩
            rw [← hxpair] at hpairsub
            rw [← hpairsub] at hesub
            exact ih x.2 (abs ++ [x.1]) (relDir ++ [x.1]) e hesub

/-- C3: a path any of whose root-relative segments matches an
exclusion pattern is never yielded by the walker (so an excluded
directory, whose name would be a segment of every descendant's
relative path, contributes zero entries): every yielded entry has
`should_exclude = false`, and with a non-empty pattern list no segment
of its relative path matches any pattern. -/
theorem claim_C3 (pats : List String) (recursive : Bool) (t : FSTree)
    (abs relDir : List String) (e : FileEntry)
    (he : e ∈ (walkDirectory pats recursive t abs relDir).1) :
    should_exclude pats e.rel = false ∧
    ∀ part ∈ e.rel, ∀ p ∈ pats, fnmatch part p = false := by
  have h1 : should_exclude pats e.rel = false :=
    walkAux_not_excluded pats recursive t.size t abs relDir e he
  exact ⟨h1, should_exclude_false_no_match h1⟩

/-- The spec example's tree: `a.txt`, `sub/b.bin`, and an excluded
`.git/c`. -/
def sampleTree : FSTree :=
  .dir (.cons "sub" (.dir (.cons "b.bin" (.file [] 1000000000 false false) .nil) false)
    (.cons ".git" (.dir (.cons "c" (.file [7] 1000000000 false false) .nil) false)
      (.cons "a.txt" (.file [104, 101, 108, 108, 111] 1000000000 false false) .nil)))
    false

theorem claim_C3_witness :
    should_exclude [".*"]
      (FileEntry.rel ⟨["root", "a.txt"], ["a.txt"], ⟨5, 1000000000⟩,
        [104, 101, 108, 108, 111], false⟩) = false ∧
    ∀ part ∈ FileEntry.rel ⟨["root", "a.txt"], ["a.txt"], ⟨5, 1000000000⟩,
        [104, 101, 108, 108, 111], false⟩,
      ∀ p ∈ [".*"], fnmatch part p = false :=
  claim_C3 [".*"] true sampleTree ["root"] []
    ⟨["root", "a.txt"], ["a.txt"], ⟨5, 1000000000⟩, [104, 101, 108, 108, 111], false⟩
    (by decide)

/-- The non-excluded file entries of one directory listing, in scandir
order (spec wording: the walker's per-directory file set). -/
def eligibleFiles (pats relDir : List String) (listed : List (String × FSTree)) :
    List (String × FSTree) :=
  listed.filter (fun x => !should_exclude pats (relDir ++ [x.1]) && !x.2.isDirB)

/-- The non-excluded subdirectories of one directory listing, in
scandir order. -/
def eligibleDirs (pats relDir : List String) (listed : List (String × FSTree)) :
    List (String × FSTree) :=
  listed.filter (fun x => !should_exclude pats (relDir ++ [x.1]) && x.2.isDirB)

theorem strLeB_total (a b : String) : strLeB a b = true ∨ strLeB b a = true :=
  charListLe_total a.data b.data

theorem strLeB_trans {a b c : String} (h1 : strLeB a b = true) (h2 : strLeB b c = true) :
    strLeB a c = true := charListLe_trans h1 h2

theorem sortByName_names_sorted (l : List (String × FSTree)) :
    ((sortByName l).map Prod.fst).Pairwise (fun a b => strLeB a b = true) := by
  rw [List.pairwise_map]
  exact sortBy_pairwise (fun a b => strLeB_total a.1 b.1)
    (fun a b c h1 h2 => @strLeB_trans a.1 b.1 c.1 h1 h2) l

/-- C2: the walk of a (listable) directory yields first the stat
results of its non-excluded files sorted by ascending name, entirely
before the concatenated walks of its non-excluded subdirectories,
which are recursed one at a time in ascending name order, each
subtree's contribution emitted before the next sibling; both name
sequences are ascending. -/
theorem claim_C2 (pats : List String) (es : FSEntries) (abs relDir : List String) :
    (walkDirectory pats true (.dir es false) abs relDir).1 =
      exceptOks ((sortByName (eligibleFiles pats relDir es.toList)).map
        (statFileResult abs relDir)) ++
      ((sortByName (eligibleDirs pats relDir es.toList)).map
        (fun x => (walkDirectory pats true x.2 (abs ++ [x.1]) (relDir ++ [x.1])).1)).flatten ∧
    ((sortByName (eligibleFiles pats relDir es.toList)).map Prod.fst).Pairwise
      (fun a b => strLeB a b = true) ∧
    ((sortByName (eligibleDirs pats relDir es.toList)).map Prod.fst).Pairwise
      (fun a b => strLeB a b = true) ∧
    (∀ x ∈ sortByName (eligibleFiles pats relDir es.toList), ∀ st c rf,
      statFields x.2 = some (st, c, rf) →
      (⟨abs ++ [x.1], relDir ++ [x.1], st, c, rf⟩ : FileEntry) ∈
        (walkDirectory pats true (.dir es false) abs relDir).1) := by
  have hdirs : (partitionScan pats relDir es.toList).1 = eligibleDirs pats relDir es.toList := by
    rw [partitionScan_eq_filters]
    rfl
  have hfiles : (partitionScan pats relDir es.toList).2 =
      eligibleFiles pats relDir es.toList := by
    rw [partitionScan_eq_filters]
    rfl
  have hdec : (walkDirectory pats true (.dir es false) abs relDir).1 =
      exceptOks ((sortByName (eligibleFiles pats relDir es.toList)).map
        (statFileResult abs relDir)) ++
      ((sortByName (eligibleDirs pats relDir es.toList)).map
        (fun x => (walkDirectory pats true x.2 (abs ++ [x.1]) (relDir ++ [x.1])).1)).flatten := by
    rw [walkDirectory_dir]
    simp only [Bool.false_eq_true, if_false, if_true, hdirs, hfiles]
    rw [List.map_map]
    rfl
  refine ⟨hdec, sortByName_names_sorted _, sortByName_names_sorted _, ?_⟩
  intro x hx st c rf hstat
  rw [hdec]
  apply List.mem_append_left
  rw [exceptOks_map_eq_filterMap]
  apply List.mem_filterMap.mpr
  refine ⟨x, hx, ?_⟩
  rw [toOption_eq_some_iff]
  unfold statFileResult
  rw [hstat]

/-! ## Policy and entry-point lemmas -/

theorem write_json_array_stream_skip_eq (tz : Int) (en : Bool) (w : Nat)
    (entries : List FileEntry) :
    write_json_array_stream tz "skip" en w entries =
      .ok ("[\n" ++ writerBody (exceptOks (writeTrace tz en w entries)) ++ "\n]\n",
        (exceptOks (writeTrace tz en w entries)).length,
        (exceptErrors (writeTrace tz en w entries)).length,
        exceptErrors (writeTrace tz en w entries)) := by
  unfold write_json_array_stream
  rw [if_neg (by decide : ¬("skip" : String) = "fail")]

theorem write_json_array_stream_fail_error (tz : Int) (en : Bool) (w : Nat)
    (entries : List FileEntry)
    (h : exceptErrors (writeTrace tz en w entries) ≠ []) :
    write_json_array_stream tz "fail" en w entries = .error .runtimeError := by
  unfold write_json_array_stream
  rw [if_pos rfl]
  cases hfe : exceptErrors (writeTrace tz en w entries) with
  | nil => exact absurd hfe h
  | cons e es => rfl

theorem walkRootFail_spec (pats : List String) (recursive : Bool) (root : Option FSTree)
    (rootPath : List String) :
    walkRootFail pats recursive root rootPath =
      match (walkRoot pats recursive root rootPath).2 with
      | [] => .ok (walkRoot pats recursive root rootPath).1
      | e :: _ => .error e := by
  cases root with
  | none => rfl
  | some t => exact walkFailAux_spec pats recursive t.size t rootPath []

theorem files2json_skip_eq (tz : Int) (timestamp : String) (root : Option FSTree)
    (rootPath : List String) (pre : String) (recursive ck : Bool)
    (pats : List String) (w : Nat) (hw : 1 ≤ w) :
    files2json tz timestamp root rootPath pre recursive ck pats w "skip" =
      .ok (build_output_filename pre timestamp,
        "[\n" ++ writerBody (exceptOks (writeTrace tz ck (if ck then w else 1)
          (walkRoot pats recursive root rootPath).1)) ++ "\n]\n",
        (exceptOks (writeTrace tz ck (if ck then w else 1)
          (walkRoot pats recursive root rootPath).1)).length,
        (exceptErrors (writeTrace tz ck (if ck then w else 1)
          (walkRoot pats recursive root rootPath).1)).length,
        (walkRoot pats recursive root rootPath).2 ++
          exceptErrors (writeTrace tz ck (if ck then w else 1)
            (walkRoot pats recursive root rootPath).1)) := by
  unfold files2json
  rw [if_neg (by simp : ¬¬(("skip" : String) = "fail" ∨ ("skip" : String) = "skip"))]
  rw [if_neg (show ¬ w < 1 by omega)]
  rw [if_neg (by decide : ¬("skip" : String) = "fail")]
  simp only [write_json_array_stream_skip_eq]

theorem files2json_fail_error (tz : Int) (timestamp : String) (root : Option FSTree)
    (rootPath : List String) (pre : String) (recursive ck : Bool)
    (pats : List String) (w : Nat) (hw : 1 ≤ w)
    (herr : (walkRoot pats recursive root rootPath).2 ≠ [] ∨
      exceptErrors (writeTrace tz ck (if ck then w else 1)
        (walkRoot pats recursive root rootPath).1) ≠ []) :
    files2json tz timestamp root rootPath pre recursive ck pats w "fail" =
      .error .runtimeError := by
  unfold files2json
  rw [if_neg (by simp : ¬¬(("fail" : String) = "fail" ∨ ("fail" : String) = "skip"))]
  rw [if_neg (show ¬ w < 1 by omega)]
  rw [if_pos rfl]
  simp only [walkRootFail_spec]
  cases hlg : (walkRoot pats recursive root rootPath).2 with
  | cons e es => rfl
  | nil =>
    have herr2 : exceptErrors (writeTrace tz ck (if ck then w else 1)
        (walkRoot pats recursive root rootPath).1) ≠ [] := by
      rcases herr with h | h
      · exact absurd hlg h
      · exact h
    simp only [hlg, write_json_array_stream_fail_error tz ck (if ck then w else 1)
      (walkRoot pats recursive root rootPath).1 herr2]

/-- A directory whose single file `f.txt` cannot be statted. -/
def c7tree : FSTree :=
  .dir (.cons "f.txt" (.file [1] 1000000000 true false) .nil) false

/-- C7 counterexample: under `skip`, a stat error in the walker is
logged (the returned log list records it), the entry is absent from
the output, but the returned skip counter is `0`, not `1` as the claim
("every error at any stage ... increments the skip counter by exactly
1") requires. -/
theorem claim_C7_counterexample :
    files2json 0 "20251012_120000" (some c7tree) ["root"] "files" true true [] 1 "skip" =
      .ok ("files_20251012_120000.json", "[\n\n]\n", 0, 0,
        [.statFailed ["root", "f.txt"]]) := by
  decide

/-- C7 (amended): under `skip`, hashing/processing errors in the
writer are each logged and increment the skip counter by exactly 1,
with the failed entry absent from the output (so `written + skipped`
covers the consumed entries exactly); listing and stat errors in the
walker are logged with the offending path and the entry or subtree
omitted, but they do not increment the returned skip counter; under
`fail`, an error at any stage aborts the run by propagating an
exception. -/
theorem claim_C7 (tz : Int) (timestamp : String) (root : Option FSTree)
    (rootPath : List String) (pre : String) (recursive ck : Bool)
    (pats : List String) (w : Nat) (hw : 1 ≤ w) :
    (∀ fname content written skipped logs,
      files2json tz timestamp root rootPath pre recursive ck pats w "skip" =
        .ok (fname, content, written, skipped, logs) →
      skipped = (exceptErrors (writeTrace tz ck (if ck then w else 1)
          (walkRoot pats recursive root rootPath).1)).length ∧
      written + skipped = (walkRoot pats recursive root rootPath).1.length ∧
      logs = (walkRoot pats recursive root rootPath).2 ++
        exceptErrors (writeTrace tz ck (if ck then w else 1)
          (walkRoot pats recursive root rootPath).1)) ∧
    ((walkRoot pats recursive root rootPath).2 ≠ [] ∨
      exceptErrors (writeTrace tz ck (if ck then w else 1)
        (walkRoot pats recursive root rootPath).1) ≠ [] →
      files2json tz timestamp root rootPath pre recursive ck pats w "fail" =
        .error .runtimeError) := by
  constructor
  · intro fname content written skipped logs h
    rw [files2json_skip_eq tz timestamp root rootPath pre recursive ck pats w hw] at h
    simp only [Except.ok.injEq, Prod.mk.injEq] at h
    obtain ⟨hf, hc, hwr, hsk, hlg⟩ := h
    subst hwr
    subst hsk
    subst hlg
    refine ⟨rfl, ?_, rfl⟩
    have hlen := exceptOks_length_add_exceptErrors_length
      (writeTrace tz ck (if ck then w else 1) (walkRoot pats recursive root rootPath).1)
    have hlen2 : (writeTrace tz ck (if ck then w else 1)
        (walkRoot pats recursive root rootPath).1).length =
        (walkRoot pats recursive root rootPath).1.length := by
      rw [writeTrace_eq_map]
      simp
    omega
  · exact files2json_fail_error tz timestamp root rootPath pre recursive ck pats w hw

/-- A directory whose single file `g.bin` stats fine but cannot be
read during hashing. -/
def c7btree : FSTree :=
  .dir (.cons "g.bin" (.file [1, 2] 1000000000 false true) .nil) false

theorem claim_C7_witness :
    (∀ fname content written skipped logs,
      files2json 0 "20251012_120000" (some c7btree) ["root"] "files" true true [] 1 "skip" =
        .ok (fname, content, written, skipped, logs) →
      skipped = (exceptErrors (writeTrace 0 true (if true then 1 else 1)
          (walkRoot [] true (some c7btree) ["root"]).1)).length ∧
      written + skipped = (walkRoot [] true (some c7btree) ["root"]).1.length ∧
      logs = (walkRoot [] true (some c7btree) ["root"]).2 ++
        exceptErrors (writeTrace 0 true (if true then 1 else 1)
          (walkRoot [] true (some c7btree) ["root"]).1)) ∧
    ((walkRoot [] true (some c7btree) ["root"]).2 ≠ [] ∨
      exceptErrors (writeTrace 0 true (if true then 1 else 1)
        (walkRoot [] true (some c7btree) ["root"]).1) ≠ [] →
      files2json 0 "20251012_120000" (some c7btree) ["root"] "files" true true [] 1 "fail" =
        .error .runtimeError) :=
  claim_C7 0 "20251012_120000" (some c7btree) ["root"] "files" true true [] 1 (by decide)

/-- C8 counterexample: `files2json` with a non-existent root under the
`skip` policy raises no error at all — it completes normally, writing
an empty JSON array with zero counts (the `FileNotFoundError` from
`os.scandir` is logged and swallowed like any listing failure). -/
theorem claim_C8_counterexample :
    files2json 0 "20251012_120000" none ["missing"] "files" true false [] 1 "skip" =
      .ok ("files_20251012_120000.json", "[\n\n]\n", 0, 0,
        [.listDirFailed ["missing"]]) := by
  decide

theorem walkRoot_invalid (pats : List String) (recursive : Bool) (root : Option FSTree)
    (rootPath : List String)
    (hbad : rootExists root = false ∨ rootIsDir root = false) :
    walkRoot pats recursive root rootPath = ([], [.listDirFailed rootPath]) := by
  cases root with
  | none => rfl
  | some t =>
    cases t with
    | file c m sf rf => exact walkDirectory_file pats recursive c m sf rf rootPath []
    | dir es lf =>
      rcases hbad with h | h
      · simp [rootExists] at h
      · simp [rootIsDir] at h

/-- C8 (amended): for a missing or non-directory root,
`Scanner.scan_directory` raises a `ValueError` before any traversal
under both policies; `files2json`, however, performs no root
validation: under `skip` it completes normally with an empty JSON
array and zero counts, and under `fail` it aborts with the traversal's
`RuntimeError`, not a configuration error. -/
theorem claim_C8 (root : Option FSTree) (pats rootPath : List String)
    (recursive ck : Bool)
    (hbad : rootExists root = false ∨ rootIsDir root = false) :
    (∀ on_error, ∃ msg,
      scan_directory root pats rootPath recursive ck on_error = .error (.valueError msg)) ∧
    (∀ (tz : Int) (ts pre : String) (w : Nat), 1 ≤ w →
      files2json tz ts root rootPath pre recursive ck pats w "skip" =
        .ok (build_output_filename pre ts, "[\n\n]\n", 0, 0, [.listDirFailed rootPath])) ∧
    (∀ (tz : Int) (ts pre : String) (w : Nat), 1 ≤ w →
      files2json tz ts root rootPath pre recursive ck pats w "fail" =
        .error .runtimeError) := by
  refine ⟨?_, ?_, ?_⟩
  · intro on_error
    unfold scan_directory
    by_cases hex : rootExists root = true
    · have hdir : rootIsDir root = false := by
        rcases hbad with h | h
        · rw [h] at hex; exact absurd hex (by simp)
        · exact h
      rw [if_neg (by simp [hex]), if_pos (by simp [hdir])]
      exact ⟨"Path is not a directory", rfl⟩
    · rw [if_pos (by simpa using hex)]
      exact ⟨"Directory does not exist", rfl⟩
  · intro tz ts pre w hw
    rw [files2json_skip_eq tz ts root rootPath pre recursive ck pats w hw]
    rw [walkRoot_invalid pats recursive root rootPath hbad]
    have hwt : writeTrace tz ck (if ck then w else 1) ([] : List FileEntry) = [] := by
      rw [writeTrace_eq_map]
      rfl
    rw [hwt]
    have hbody : "[\n" ++ writerBody (exceptOks ([] : List (Except LogEntry Record))) ++
        "\n]\n" = "[\n\n]\n" := by decide
    rw [hbody]
    rfl
  · intro tz ts pre w hw
    apply files2json_fail_error tz ts root rootPath pre recursive ck pats w hw
    left
    rw [walkRoot_invalid pats recursive root rootPath hbad]
    simp

theorem claim_C8_witness :
    (∀ on_error, ∃ msg,
      scan_directory (some (FSTree.file [1] 0 false false)) [] ["rootfile"] true false on_error =
        .error (.valueError msg)) ∧
    (∀ (tz : Int) (ts pre : String) (w : Nat), 1 ≤ w →
      files2json tz ts (some (FSTree.file [1] 0 false false)) ["rootfile"] pre true false [] w
          "skip" =
        .ok (build_output_filename pre ts, "[\n\n]\n", 0, 0, [.listDirFailed ["rootfile"]])) ∧
    (∀ (tz : Int) (ts pre : String) (w : Nat), 1 ≤ w →
      files2json tz ts (some (FSTree.file [1] 0 false false)) ["rootfile"] pre true false [] w
          "fail" =
        .error .runtimeError) :=
  claim_C8 (some (FSTree.file [1] 0 false false)) [] ["rootfile"] true false (by decide)

/-! ## Canonical trees: listing-order independence (claim C9)

Two scandir enumerations of the same on-disk tree differ only in the
order of each directory's entry list.  `canon` sorts every directory's
entries by name recursively, so two platform listings of one tree have
equal canonical forms; `walk_canon` shows the walk only depends on the
canonical form (given real, duplicate-free file names). -/

/-- Rebuild an entry list. -/
def entriesOfList : List (String × FSTree) → FSEntries
  | [] => .nil
  | (n, t) :: rest => .cons n t (entriesOfList rest)

@[simp] theorem entriesOfList_toList (l : List (String × FSTree)) :
    (entriesOfList l).toList = l := by
  induction l with
  | nil => rfl
  | cons x rest ih =>
    rcases x with ⟨n, t⟩
    simp [entriesOfList, FSEntries.toList, ih]

/-- Sort every directory's entry list by name, recursively (fuel
version). -/
def canonAux : Nat → FSTree → FSTree
  | 0, t => t
  | _ + 1, .file c m sf rf => .file c m sf rf
  | fuel + 1, .dir es lf =>
    .dir (entriesOfList (sortByName (es.toList.map (fun x => (x.1, canonAux fuel x.2))))) lf

/-- The canonical form of a tree. -/
def canon (t : FSTree) : FSTree := canonAux t.size t

/-- No duplicates in a name list. -/
def nodupStr : List String → Bool
  | [] => true
  | x :: xs => !(xs.contains x) && nodupStr xs

/-- All directory listings have duplicate-free names (fuel version). -/
def nodupNamesAux : Nat → FSTree → Bool
  | 0, _ => true
  | _ + 1, .file _ _ _ _ => true
  | fuel + 1, .dir es _ =>
    nodupStr (es.toList.map Prod.fst) && es.toList.all (fun x => nodupNamesAux fuel x.2)

/-- Real directory trees have duplicate-free names in every listing. -/
def nodupNames (t : FSTree) : Bool := nodupNamesAux t.size t

theorem FSEntries.size_eq_toList : ∀ (es : FSEntries),
    es.size = (es.toList.map (fun x => 1 + x.2.size)).sum
  | .nil => rfl
  | .cons n t r => by
    have ih := FSEntries.size_eq_toList r
    simp [FSEntries.size, FSEntries.toList, ih]

theorem size_entriesOfList (l : List (String × FSTree)) :
    (entriesOfList l).size = (l.map (fun x => 1 + x.2.size)).sum := by
  induction l with
  | nil => rfl
  | cons x rest ih =>
    rcases x with ⟨n, t⟩
    simp [entriesOfList, FSEntries.size, ih]

theorem canonAux_size : ∀ (fuel : Nat) (t : FSTree), (canonAux fuel t).size = t.size := by
  intro fuel
  induction fuel with
  | zero => intro t; rfl
  | succ fuel ih =>
    intro t
    cases t with
    | file c m sf rf => rfl
    | dir es lf =>
      simp only [canonAux, FSTree.size, size_entriesOfList]
      have hperm : (sortByName (es.toList.map (fun x => (x.1, canonAux fuel x.2)))).Perm
          (es.toList.map (fun x => (x.1, canonAux fuel x.2))) := sortBy_perm _ _
      have hsum := (hperm.map (fun x => 1 + x.2.size)).sum_eq
      rw [hsum, List.map_map, FSEntries.size_eq_toList es]
      have hcongr : es.toList.map ((fun x : String × FSTree => 1 + x.2.size) ∘
          fun x : String × FSTree => (x.1, canonAux fuel x.2)) =
          es.toList.map (fun x => 1 + x.2.size) := by
        apply List.map_congr_left
        intro x _
        simp [Function.comp_def, ih x.2]
      rw [hcongr]

theorem canonAux_file (fuel : Nat) (c : List Nat) (m : Int) (sf rf : Bool) :
    canonAux fuel (.file c m sf rf) = .file c m sf rf := by
  cases fuel with
  | zero => rfl
  | succ fuel => rfl

theorem canonAux_isDirB (fuel : Nat) (t : FSTree) :
    (canonAux fuel t).isDirB = t.isDirB := by
  cases fuel with
  | zero => rfl
  | succ fuel =>
    cases t with
    | file c m sf rf => rfl
    | dir es lf => rfl

theorem canonAux_statFields (fuel : Nat) (t : FSTree) :
    statFields (canonAux fuel t) = statFields t := by
  cases fuel with
  | zero => rfl
  | succ fuel =>
    cases t with
    | file c m sf rf => rfl
    | dir es lf => rfl

/-- The canonical form does not depend on the fuel once it reaches the
tree size. -/
theorem canonAux_fuel :
    ∀ (fuel₁ fuel₂ : Nat) (t : FSTree), t.size ≤ fuel₁ → t.size ≤ fuel₂ →
      canonAux fuel₁ t = canonAux fuel₂ t := by
  intro fuel₁
  induction fuel₁ with
  | zero =>
    intro fuel₂ t h1 h2
    have := t.size_pos
    omega
  | succ fuel ih =>
    intro fuel₂ t h1 h2
    have hpos := t.size_pos
    cases fuel₂ with
    | zero => omega
    | succ fuel₂ =>
      cases t with
      | file c m sf rf => rfl
      | dir es lf =>
        simp only [canonAux]
        have hsub : ∀ x ∈ es.toList,
            (fun x : String × FSTree => (x.1, canonAux fuel x.2)) x =
            (fun x : String × FSTree => (x.1, canonAux fuel₂ x.2)) x := by
          intro x hx
          have hsz : x.2.size < 1 + es.size := by
            rcases x with ⟨n, c⟩
            exact size_le_of_mem_toList hx
          have hts : FSTree.size (.dir es lf) = 1 + es.size := by simp [FSTree.size]
          rw [hts] at h1 h2
          simp only [Prod.mk.injEq, true_and]
          exact ih fuel₂ x.2 (by omega) (by omega)
        rw [List.map_congr_left hsub]

theorem all_congr_mem {l : List α} {p q : α → Bool} (h : ∀ x ∈ l, p x = q x) :
    l.all p = l.all q := by
  induction l with
  | nil => rfl
  | cons x xs ih =>
    simp only [List.all_cons]
    rw [h x (List.mem_cons_self _ _), ih (fun y hy => h y (List.mem_cons_of_mem _ hy))]

theorem nodupNamesAux_fuel :
    ∀ (fuel₁ fuel₂ : Nat) (t : FSTree), t.size ≤ fuel₁ → t.size ≤ fuel₂ →
      nodupNamesAux fuel₁ t = nodupNamesAux fuel₂ t := by
  intro fuel₁
  induction fuel₁ with
  | zero =>
    intro fuel₂ t h1 h2
    have := t.size_pos
    omega
  | succ fuel ih =>
    intro fuel₂ t h1 h2
    have hpos := t.size_pos
    cases fuel₂ with
    | zero => omega
    | succ fuel₂ =>
      cases t with
      | file c m sf rf => rfl
      | dir es lf =>
        simp only [nodupNamesAux]
        have hsub : ∀ x ∈ es.toList,
            nodupNamesAux fuel x.2 = nodupNamesAux fuel₂ x.2 := by
          intro x hx
          have hsz : x.2.size < 1 + es.size := by
            rcases x with ⟨n, c⟩
            exact size_le_of_mem_toList hx
          have hts : FSTree.size (.dir es lf) = 1 + es.size := by simp [FSTree.size]
          rw [hts] at h1 h2
          exact ih fuel₂ x.2 (by omega) (by omega)
        rw [all_congr_mem hsub]

theorem nodupNames_dir_elim {es : FSEntries} {lf : Bool}
    (h : nodupNames (.dir es lf) = true) :
    nodupStr (es.toList.map Prod.fst) = true ∧
    ∀ x ∈ es.toList, nodupNames x.2 = true := by
  unfold nodupNames at h
  have hts : FSTree.size (.dir es lf) = es.size + 1 := by
    simp [FSTree.size]
    omega
  rw [hts] at h
  simp only [nodupNamesAux, Bool.and_eq_true, List.all_eq_true] at h
  refine ⟨h.1, ?_⟩
  intro x hx
  have hsz : x.2.size < 1 + es.size := by
    rcases x with ⟨n, c⟩
    exact size_le_of_mem_toList hx
  unfold nodupNames
  rw [← nodupNamesAux_fuel es.size x.2.size x.2 (by omega) le_rfl]
  exact h.2 x hx

theorem nodupStr_nodup {l : List String} (h : nodupStr l = true) : l.Nodup := by
  induction l with
  | nil => exact List.nodup_nil
  | cons x xs ih =>
    simp only [nodupStr, Bool.and_eq_true] at h
    refine List.nodup_cons.mpr ⟨?_, ih h.2⟩
    intro hmem
    have : xs.contains x = true := by simpa using hmem
    rw [this] at h
    simpa using h.1

theorem charListLe_antisymm {a b : List Char} (h1 : charListLe a b = true)
    (h2 : charListLe b a = true) : a = b := by
  induction a generalizing b with
  | nil =>
    cases b with
    | nil => rfl
    | cons y ys => simp [charListLe] at h2
  | cons x xs ih =>
    cases b with
    | nil => simp [charListLe] at h1
    | cons y ys =>
      rw [charListLe_cons] at h1 h2
      rcases h1 with h1 | ⟨rfl, h1⟩
      · rcases h2 with h2 | ⟨h2e, h2⟩
        · exact absurd h2 (not_lt_of_lt h1)
        · exact absurd h1 (h2e ▸ lt_irrefl y)
      · rcases h2 with h2 | ⟨h2e, h2⟩
        · exact absurd h2 (lt_irrefl x)
        · rw [ih h1 h2]

theorem strLeB_antisymm {a b : String} (h1 : strLeB a b = true) (h2 : strLeB b a = true) :
    a = b := by
  have := charListLe_antisymm h1 h2
  cases a
  cases b
  simp only at this
  rw [this]

/-- Two lists of named entries that are permutations of one another,
are both sorted by name, and have duplicate-free names, are equal. -/
theorem sorted_nodup_key_perm_eq {l₁ l₂ : List (String × FSTree)}
    (hperm : l₁.Perm l₂)
    (hs₁ : l₁.Pairwise (fun a b => strLeB a.1 b.1 = true))
    (hs₂ : l₂.Pairwise (fun a b => strLeB a.1 b.1 = true))
    (hnd : (l₁.map Prod.fst).Nodup) : l₁ = l₂ := by
  have hnd₂ : (l₂.map Prod.fst).Nodup := ((hperm.map Prod.fst).nodup_iff).mp hnd
  have hne₁ : l₁.Pairwise (fun a b : String × FSTree => a.1 ≠ b.1) :=
    (List.pairwise_map).mp hnd
  have hne₂ : l₂.Pairwise (fun a b : String × FSTree => a.1 ≠ b.1) :=
    (List.pairwise_map).mp hnd₂
  have hstrict₁ : l₁.Pairwise
      (fun a b : String × FSTree => strLeB a.1 b.1 = true ∧ a.1 ≠ b.1) := hs₁.and hne₁
  have hstrict₂ : l₂.Pairwise
      (fun a b : String × FSTree => strLeB a.1 b.1 = true ∧ a.1 ≠ b.1) := hs₂.and hne₂
  haveI : IsAntisymm (String × FSTree)
      (fun a b : String × FSTree => strLeB a.1 b.1 = true ∧ a.1 ≠ b.1) := by
    constructor
    intro a b hab hba
    exact absurd (strLeB_antisymm hab.1 hba.1) hab.2
  exact List.eq_of_perm_of_sorted hperm hstrict₁ hstrict₂

/-- Filtering (by a predicate that only reads names and
file/directory-ness) after canonicalizing and sorting a listing is a
permutation of canonicalizing the filtered original listing. -/
theorem canon_filter_perm (fl : Nat) (P : String × FSTree → Bool)
    (hP : ∀ x : String × FSTree, P (x.1, canonAux fl x.2) = P x)
    (l : List (String × FSTree)) :
    ((sortByName (l.map (fun x => (x.1, canonAux fl x.2)))).filter P).Perm
      ((l.filter P).map (fun x => (x.1, canonAux fl x.2))) := by
  have h1 : ((sortByName (l.map (fun x => (x.1, canonAux fl x.2)))).filter P).Perm
      ((l.map (fun x => (x.1, canonAux fl x.2))).filter P) :=
    (sortBy_perm _ _).filter P
  have h2 : (l.map (fun x => (x.1, canonAux fl x.2))).filter P =
      (l.filter P).map (fun x => (x.1, canonAux fl x.2)) := by
    rw [List.filter_map]
    congr 1
    apply List.filter_congr
    intro x _
    exact hP x
  rw [h2] at h1
  exact h1

/-- The names of a canonicalized listing are the original names. -/
theorem names_map_canon (fl : Nat) (l : List (String × FSTree)) :
    (l.map (fun x => (x.1, canonAux fl x.2))).map Prod.fst = l.map Prod.fst := by
  rw [List.map_map]
  apply List.map_congr_left
  intro x _
  rfl

/-- A canonicalized listing stays sorted by name. -/
theorem pairwise_names_map_canon (fl : Nat) {l : List (String × FSTree)}
    (h : l.Pairwise (fun a b => strLeB a.1 b.1 = true)) :
    (l.map (fun x => (x.1, canonAux fl x.2))).Pairwise
      (fun a b => strLeB a.1 b.1 = true) :=
  List.Pairwise.map _ (fun _ _ hab => hab) h

theorem sortByName_pairwise (l : List (String × FSTree)) :
    (sortByName l).Pairwise (fun a b => strLeB a.1 b.1 = true) :=
  sortBy_pairwise (fun a b => strLeB_total a.1 b.1)
    (fun a b c h1 h2 => @strLeB_trans a.1 b.1 c.1 h1 h2) l

/-- Sorting the non-excluded files of the canonicalized listing gives
the sorted non-excluded files of the original listing (file nodes are
untouched by canonicalization). -/
theorem canon_files_eq (pats relDir : List String) (fl : Nat) (l : List (String × FSTree))
    (hnd : (l.map Prod.fst).Nodup) :
    sortByName ((sortByName (l.map (fun x => (x.1, canonAux fl x.2)))).filter
      (fun x => !should_exclude pats (relDir ++ [x.1]) && !x.2.isDirB)) =
    sortByName (l.filter (fun x => !should_exclude pats (relDir ++ [x.1]) && !x.2.isDirB)) := by
  have hP : ∀ x : String × FSTree,
      (fun x : String × FSTree => !should_exclude pats (relDir ++ [x.1]) && !x.2.isDirB)
        (x.1, canonAux fl x.2) =
      (fun x : String × FSTree => !should_exclude pats (relDir ++ [x.1]) && !x.2.isDirB) x := by
    intro x
    simp only [canonAux_isDirB]
  have hperm1 := canon_filter_perm fl
    (fun x => !should_exclude pats (relDir ++ [x.1]) && !x.2.isDirB) hP l
  have hid : ((l.filter (fun x => !should_exclude pats (relDir ++ [x.1]) && !x.2.isDirB)).map
      (fun x => (x.1, canonAux fl x.2))) =
      l.filter (fun x => !should_exclude pats (relDir ++ [x.1]) && !x.2.isDirB) := by
    have hpt : ∀ x ∈ l.filter (fun x => !should_exclude pats (relDir ++ [x.1]) && !x.2.isDirB),
        (fun x : String × FSTree => (x.1, canonAux fl x.2)) x = x := by
      intro x hx
      have hcond := List.of_mem_filter hx
      rcases (Bool.and_eq_true _ _).mp hcond with ⟨_, hfile⟩
      rcases x with ⟨n, xt⟩
      cases xt with
      | file c2 m2 sf2 rf2 => simp [canonAux_file]
      | dir es2 lf2 => simp [FSTree.isDirB] at hfile
    rw [List.map_congr_left hpt]
    simp
  rw [hid] at hperm1
  apply sorted_nodup_key_perm_eq
  · exact ((sortBy_perm _ _).trans hperm1).trans (sortBy_perm _ _).symm
  · exact sortByName_pairwise _
  · exact sortByName_pairwise _
  · have hndf : ((l.filter
        (fun x => !should_exclude pats (relDir ++ [x.1]) && !x.2.isDirB)).map Prod.fst).Nodup :=
      ((List.filter_sublist l).map Prod.fst).nodup hnd
    have hp2 := ((sortBy_perm (fun a b : String × FSTree => strLeB a.1 b.1) _).trans hperm1).map Prod.fst
    exact hp2.nodup_iff.mpr hndf

/-- Sorting the non-excluded subdirectories of the canonicalized
listing gives the canonicalizations of the sorted non-excluded
subdirectories of the original listing, in the same (name) order. -/
theorem canon_dirs_eq (pats relDir : List String) (fl : Nat) (l : List (String × FSTree))
    (hnd : (l.map Prod.fst).Nodup) :
    sortByName ((sortByName (l.map (fun x => (x.1, canonAux fl x.2)))).filter
      (fun x => !should_exclude pats (relDir ++ [x.1]) && x.2.isDirB)) =
    (sortByName (l.filter (fun x => !should_exclude pats (relDir ++ [x.1]) && x.2.isDirB))).map
      (fun x => (x.1, canonAux fl x.2)) := by
  have hP : ∀ x : String × FSTree,
      (fun x : String × FSTree => !should_exclude pats (relDir ++ [x.1]) && x.2.isDirB)
        (x.1, canonAux fl x.2) =
      (fun x : String × FSTree => !should_exclude pats (relDir ++ [x.1]) && x.2.isDirB) x := by
    intro x
    simp only [canonAux_isDirB]
  have hperm1 := canon_filter_perm fl
    (fun x => !should_exclude pats (relDir ++ [x.1]) && x.2.isDirB) hP l
  apply sorted_nodup_key_perm_eq
  · refine ((sortBy_perm _ _).trans hperm1).trans ?_
    exact ((sortBy_perm (fun a b : String × FSTree => strLeB a.1 b.1) _).map _).symm
  · exact sortByName_pairwise _
  · exact pairwise_names_map_canon fl (sortByName_pairwise _)
  · have hndf : ((l.filter
        (fun x => !should_exclude pats (relDir ++ [x.1]) && x.2.isDirB)).map Prod.fst).Nodup :=
      ((List.filter_sublist l).map Prod.fst).nodup hnd
    have hp2 := ((sortBy_perm (fun a b : String × FSTree => strLeB a.1 b.1) _).trans hperm1).map Prod.fst
    rw [names_map_canon] at hp2
    exact hp2.nodup_iff.mpr hndf

/-- The walk depends on the tree only through its canonical form (for
trees whose listings have duplicate-free names, as real directories
do): scandir enumeration order cannot influence the output. -/
theorem walk_canon (pats : List String) (recursive : Bool) :
    ∀ (fuel : Nat) (t : FSTree) (abs relDir : List String),
      t.size ≤ fuel → nodupNames t = true →
      walkDirectory pats recursive t abs relDir =
        walkDirectory pats recursive (canon t) abs relDir := by
  intro fuel
  induction fuel with
  | zero =>
    intro t abs relDir h1 h2
    have := t.size_pos
    omega
  | succ fuel ih =>
    intro t abs relDir hsz hnd
    cases t with
    | file c m sf rf => rfl
    | dir es lf =>
      have hts : FSTree.size (.dir es lf) = es.size + 1 := by
        simp [FSTree.size]
        omega
      have hcanon : canon (.dir es lf) =
          .dir (entriesOfList (sortByName
            (es.toList.map (fun x => (x.1, canonAux es.size x.2))))) lf := by
        unfold canon
        rw [hts]
        rfl
      rcases nodupNames_dir_elim hnd with ⟨hndnames, hndchildren⟩
      have hndl : (es.toList.map Prod.fst).Nodup := nodupStr_nodup hndnames
      rw [hcanon, walkDirectory_dir, walkDirectory_dir]
      by_cases hlf : lf = true
      · simp [hlf]
      · simp only [hlf, Bool.false_eq_true, if_false, entriesOfList_toList,
          partitionScan_eq_filters]
        rw [canon_files_eq pats relDir es.size es.toList hndl,
          canon_dirs_eq pats relDir es.size es.toList hndl]
        have hdirsmap : ∀ g : (String × FSTree) → List FileEntry × List LogEntry,
            (∀ x ∈ sortByName (es.toList.filter
                (fun x => !should_exclude pats (relDir ++ [x.1]) && x.2.isDirB)),
              g (x.1, canonAux es.size x.2) = g x) →
            ((sortByName (es.toList.filter
                (fun x => !should_exclude pats (relDir ++ [x.1]) && x.2.isDirB))).map
              (fun x => (x.1, canonAux es.size x.2))).map g =
            (sortByName (es.toList.filter
                (fun x => !should_exclude pats (relDir ++ [x.1]) && x.2.isDirB))).map g := by
          intro g hg
          rw [List.map_map]
          apply List.map_congr_left
          intro x hx
          exact hg x hx
        have hchild : ∀ x ∈ sortByName (es.toList.filter
            (fun x => !should_exclude pats (relDir ++ [x.1]) && x.2.isDirB)),
            walkDirectory pats recursive (canonAux es.size x.2) (abs ++ [x.1]) (relDir ++ [x.1]) =
            walkDirectory pats recursive x.2 (abs ++ [x.1]) (relDir ++ [x.1]) := by
          intro x hx
          have hxl : x ∈ es.toList :=
            List.mem_of_mem_filter (mem_sortBy.mp hx)
          have hxsz : x.2.size < 1 + es.size := by
            rcases x with ⟨n, c⟩
            exact size_le_of_mem_toList hxl
          have hcfx : canonAux es.size x.2 = canon x.2 := by
            unfold canon
            exact canonAux_fuel es.size x.2.size x.2 (by omega) le_rfl
          rw [hcfx]
          rw [hts] at hsz
          exact (ih x.2 (abs ++ [x.1]) (relDir ++ [x.1]) (by omega) (hndchildren x hxl)).symm
        rw [hdirsmap (fun x =>
            walkDirectory pats recursive x.2 (abs ++ [x.1]) (relDir ++ [x.1]))
          (fun x hx => hchild x hx)]

/-- Under `skip`, the writer always succeeds, and its result is that of
the per-entry sequential trace — for every worker count. -/
theorem write_skip_ok (tz : Int) (ck : Bool) (W : Nat) (entries : List FileEntry) :
    write_json_array_stream tz "skip" ck W entries =
      .ok ("[\n" ++ writerBody (exceptOks (entries.map (procEntrySeq tz ck))) ++ "\n]\n",
        (exceptOks (entries.map (procEntrySeq tz ck))).length,
        (exceptErrors (entries.map (procEntrySeq tz ck))).length,
        exceptErrors (entries.map (procEntrySeq tz ck))) := by
  unfold write_json_array_stream
  simp only [writeTrace_eq_map]
  simp

/-- `files2json` under `skip` on an existing root, reduced to the walk
and the sequential writer trace. -/
theorem files2json_skip (tz : Int) (ts : String) (t : FSTree) (rootPath : List String)
    (pre : String) (recursive ck : Bool) (pats : List String) (w : Nat)
    (hw : 1 ≤ w) :
    files2json tz ts (some t) rootPath pre recursive ck pats w "skip" =
      .ok (build_output_filename pre ts,
        "[\n" ++ writerBody (exceptOks
          ((walkDirectory pats recursive t rootPath []).1.map (procEntrySeq tz ck))) ++ "\n]\n",
        (exceptOks ((walkDirectory pats recursive t rootPath []).1.map (procEntrySeq tz ck))).length,
        (exceptErrors ((walkDirectory pats recursive t rootPath []).1.map (procEntrySeq tz ck))).length,
        (walkDirectory pats recursive t rootPath []).2 ++
          exceptErrors ((walkDirectory pats recursive t rootPath []).1.map (procEntrySeq tz ck))) := by
  have hnw : ¬ (w < 1) := by omega
  unfold files2json
  simp only [walkRoot]
  simp [hnw, write_skip_ok]

/-- C9: two runs with identical configuration over the same unchanged
directory tree — equal canonical forms, so the platform may list
entries in any order — and any worker counts produce byte-identical
output file content, identical counters and identical warnings, and
output filenames that differ only in the embedded timestamp. -/
theorem claim_C9 (tz : Int) (ts1 ts2 : String) (t1 t2 : FSTree)
    (rootPath : List String) (pre : String) (recursive ck : Bool)
    (pats : List String) (w1 w2 : Nat)
    (hw1 : 1 ≤ w1) (hw2 : 1 ≤ w2)
    (hnd1 : nodupNames t1 = true) (hnd2 : nodupNames t2 = true)
    (hc : canon t1 = canon t2) :
    (∃ content written skipped logs,
      files2json tz ts1 (some t1) rootPath pre recursive ck pats w1 "skip" =
        .ok (build_output_filename pre ts1, content, written, skipped, logs) ∧
      files2json tz ts2 (some t2) rootPath pre recursive ck pats w2 "skip" =
        .ok (build_output_filename pre ts2, content, written, skipped, logs)) ∧
    build_output_filename pre ts1 = pre ++ "_" ++ ts1 ++ ".json" ∧
    build_output_filename pre ts2 = pre ++ "_" ++ ts2 ++ ".json" := by
  have hwalk : walkDirectory pats recursive t1 rootPath [] =
      walkDirectory pats recursive t2 rootPath [] := by
    rw [walk_canon pats recursive t1.size t1 rootPath [] le_rfl hnd1, hc,
      ← walk_canon pats recursive t2.size t2 rootPath [] le_rfl hnd2]
  refine ⟨⟨_, _, _, _, files2json_skip tz ts1 t1 rootPath pre recursive ck pats w1 hw1, ?_⟩,
    rfl, rfl⟩
  rw [files2json_skip tz ts2 t2 rootPath pre recursive ck pats w2 hw2, ← hwalk]

/-- One directory tree, listed by `os.scandir` in one order... -/
def c9t1 : FSTree :=
  .dir (.cons "b.bin" (.file [] 5 false false)
    (.cons "a.txt" (.file [104, 105] 10 false false)
      (.cons "sub" (.dir (.cons "c" (.file [1, 2] 3 false false) .nil) false) .nil))) false

/-- ...and the same tree listed in another order. -/
def c9t2 : FSTree :=
  .dir (.cons "sub" (.dir (.cons "c" (.file [1, 2] 3 false false) .nil) false)
    (.cons "a.txt" (.file [104, 105] 10 false false)
      (.cons "b.bin" (.file [] 5 false false) .nil))) false

/-- Witness for C9 at two concrete listing orders of one tree, worker
counts 1 and 8, different timestamps. -/
theorem claim_C9_witness :
    (1 ≤ 1 ∧ 1 ≤ 8 ∧ nodupNames c9t1 = true ∧ nodupNames c9t2 = true ∧
      canon c9t1 = canon c9t2) ∧
    ((∃ content written skipped logs,
      files2json 0 "20250101_000000" (some c9t1) ["root"] "files" true true [".*"] 1 "skip" =
        .ok (build_output_filename "files" "20250101_000000", content, written, skipped, logs) ∧
      files2json 0 "20250102_000000" (some c9t2) ["root"] "files" true true [".*"] 8 "skip" =
        .ok (build_output_filename "files" "20250102_000000", content, written, skipped, logs)) ∧
    build_output_filename "files" "20250101_000000" = "files" ++ "_" ++ "20250101_000000" ++ ".json" ∧
    build_output_filename "files" "20250102_000000" = "files" ++ "_" ++ "20250102_000000" ++ ".json") :=
  ⟨⟨by decide, by decide, by decide, by decide, by rfl⟩,
    claim_C9 0 "20250101_000000" "20250102_000000" c9t1 c9t2 ["root"] "files" true true [".*"]
      1 8 (by decide) (by decide) (by decide) (by decide) (by rfl)⟩
